import Mathlib

/- Verification development for the gzipi library (gzip/zstd indexing, repacking
   and searching).  Byte streams are modelled as `List Nat` (each element a byte
   value), file positions as `Nat`, and the library's functions from
   `gzipi/lib.py` are embedded as executable Lean definitions below. -/

namespace Gzipi

/-- Newline byte, the line terminator used throughout the library. -/
def NL : Nat := 10

/-- The pipe byte, the default CSV delimiter of the index format. -/
def PIPE : Nat := 124

/-- Oldest Unix timestamp accepted by the gzip header validator (2010-01-01). -/
def OLDEST_UNIX_TIMESTAMP : Int := 1262307600

/-- Accepted values of the gzip header's operating-system byte. -/
def POSSIBLE_OS_TYPES : List Nat := [0x00, 0x03, 0x07, 0xFF]

/-- Magic bytes of a gzip member header plus the deflate method byte. -/
def GZIP_HEADER : List Nat := [0x1f, 0x8b, 0x08]

/-- Magic bytes of a zstd frame. -/
def ZSTD_HEADER : List Nat := [0x28, 0xb5, 0x2f, 0xfd]

/-- Length of the gzip header prefix inspected by the validator. -/
def GZIP_HEADER_LENGTH : Nat := 10

/-- Maximum length of the zstd frame header inspected by the validator. -/
def ZSTD_HEADER_LENGTH : Nat := 18

/-- A four-byte little-endian group read as a signed 32-bit integer, as done by
    `struct.unpack("i", header[4:8])` on a little-endian host. -/
def signed32 (b0 b1 b2 b3 : Nat) : Int :=
  let u : Nat := b0 + 256 * b1 + 65536 * b2 + 16777216 * b3
  if u < 2 ^ 31 then (u : Int) else (u : Int) - 2 ^ 32

/-- Bit `i` of a byte, with the least significant bit numbered 0. -/
def bitOf (b i : Nat) : Nat := b / 2 ^ i % 2

/-- Embedding of `_is_valid_gzip_header`.  The current wall-clock time used by
    the upper timestamp bound is passed explicitly as `now`.  The final
    `flags > 0xfc` test of the source returns `True` on both branches, so it is
    modelled as the constant `true` tail. -/
def is_valid_gzip_header (header : List Nat) (now : Int) : Bool :=
  if header.length < GZIP_HEADER_LENGTH then false
  else
    let ts := signed32 (header.getD 4 0) (header.getD 5 0) (header.getD 6 0) (header.getD 7 0)
    if ts < OLDEST_UNIX_TIMESTAMP ∨ now < ts then false
    else if header.getD 9 0 ∉ POSSIBLE_OS_TYPES then false
    else true

/-- Embedding of the bit test of `_is_valid_zstd_header` on the frame header
    descriptor byte: the source renders the byte as the MSB-first 8-character
    binary string and requires string positions 3..4 to be `"00"` and string
    position 5 to be `"1"`; string position `k` is bit `7 - k` of the byte, so
    the test is: bit 4 = 0, bit 3 = 0 and bit 2 = 1. -/
def zstd_flag_check (b : Nat) : Bool :=
  bitOf b 4 = 0 ∧ bitOf b 3 = 0 ∧ bitOf b 2 = 1

/-- Embedding of `_is_valid_zstd_header`: the descriptor is `header[4:5]`; when
    the candidate has fewer than five bytes the slice is empty and
    `int('', 16)` raises `ValueError`, modelled as `none`. -/
def is_valid_zstd_header (header : List Nat) : Option Bool :=
  match header.get? 4 with
  | some b => some (zstd_flag_check b)
  | none => none

/-- The zstd descriptor condition as the specification words it, with the bit
    names of the zstd frame format (RFC 8878, LSB-0 numbering): Reserved_bit is
    bit 3, Unused_bit is bit 4 and Single_Segment_flag is bit 5.  Stated from
    the spec's words for comparison with `zstd_flag_check`, which is the
    embedding of the source. -/
def zstdSpecValid (b : Nat) : Bool :=
  bitOf b 3 = 0 ∧ bitOf b 4 = 0 ∧ bitOf b 5 = 1

/-- Compression kinds of the library. -/
inductive Compression where
  | NONE
  | GZIP
  | ZSTD
deriving DecidableEq, Repr

/-- Positions at which `needle` occurs as a contiguous sublist of `hay`. -/
def occurrencesAt (hay needle : List Nat) : List Nat :=
  (List.range (hay.length + 1)).filter (fun i => needle.isPrefixOf (hay.drop i))

/-- Embedding of `bytes.rfind`: the last occurrence position of `needle` in
    `hay`, or `none` where Python returns `-1`. -/
def rfind (hay needle : List Nat) : Option Nat :=
  (occurrencesAt hay needle).getLast?

/-- One triple yielded by `_iterate_archives`: the frame bytes together with
    the start and end offsets of the frame in the input. -/
abbrev Frame := List Nat × Nat × Nat

/-- Embedding of `_iterate_archives`, generalised over the header magic `hdr`,
    the inspected header length `hl` and the header validator `vh` (the caller
    instantiates these per compression kind).  `input` is the unread remainder
    of the stream, `archive` the accumulator and `endOff` the running offset;
    the top level starts with an empty accumulator at offset 0.  A read of
    `buffer_size` bytes is modelled by `take`/`drop`; an empty read is EOF.
    The loop is driven by a fuel argument so that the definition is
    structurally recursive; every iteration with a nonempty chunk consumes at
    least one input byte, so fuel `input.length + 1` (used by
    `iterate_archives`) always reaches the EOF branch first and the fuel-out
    base case, which mirrors the EOF yield, is never taken. -/
def iterArchives (vh : List Nat → Bool) (hdr : List Nat) (hl bufSize : Nat) :
    Nat → List Nat → List Nat → Nat → List Frame
  | 0, _, archive, endOff => [(archive, endOff, endOff + archive.length)]
  | fuel + 1, input, archive, endOff =>
    if (input.take bufSize).isEmpty then
      [(archive, endOff, endOff + archive.length)]
    else if (archive.drop (archive.length - (hl - 1)) ++ input.take bufSize).length < hl
        ∨ rfind (archive.drop (archive.length - (hl - 1)) ++ input.take bufSize) hdr = none then
      iterArchives vh hdr hl bufSize fuel (input.drop bufSize) (archive ++ input.take bufSize) endOff
    else
      match rfind (archive ++ input.take bufSize) hdr with
      | none =>
        iterArchives vh hdr hl bufSize fuel (input.drop bufSize) (archive ++ input.take bufSize) endOff
      | some p =>
        if p = 0 ∨ (archive ++ input.take bufSize).length < hl
            ∨ (archive ++ input.take bufSize).length - p < hl
            ∨ ¬ vh (((archive ++ input.take bufSize).drop p).take hl) then
          iterArchives vh hdr hl bufSize fuel (input.drop bufSize) (archive ++ input.take bufSize) endOff
        else
          ((archive ++ input.take bufSize).take p, endOff, endOff + p) ::
            iterArchives vh hdr hl bufSize fuel (input.drop bufSize)
              ((archive ++ input.take bufSize).drop p) (endOff + p)

/-- Embedding of the compression dispatch at the top of `_iterate_archives`:
    window lookback, header magic, header length and validator per declared
    compression kind.  `now` feeds the gzip timestamp check.  For `NONE` the
    source fails its `assert compression in SUPPORTED_COMPRESSIONS`, so no
    frames are produced.  Inside the iterator the zstd validator always
    receives a slice of `ZSTD_HEADER_LENGTH` bytes, so the `ValueError` case of
    `is_valid_zstd_header` cannot occur there. -/
def iterate_archives (input : List Nat) (bufSize : Nat) (compression : Compression)
    (now : Int) : List Frame :=
  match compression with
  | .GZIP =>
    iterArchives (fun h => is_valid_gzip_header h now) GZIP_HEADER GZIP_HEADER_LENGTH
      bufSize (input.length + 1) input [] 0
  | .ZSTD =>
    iterArchives (fun h => (is_valid_zstd_header h).getD false) ZSTD_HEADER ZSTD_HEADER_LENGTH
      bufSize (input.length + 1) input [] 0
  | .NONE => []

/-- The offsets of a frame list chain correctly from `off`: the first frame
    starts at `off`, each frame's end offset is its start plus its byte count,
    and each frame's end offset is the next frame's start offset. -/
def offsetsChainB : Nat → List Frame → Bool
  | _, [] => true
  | off, (bs, s, e) :: rest => s == off && e == off + bs.length && offsetsChainB e rest

/-- The end offset of the last frame of the list, or `off` for an empty list. -/
def lastEndOff : Nat → List Frame → Nat
  | off, [] => off
  | _, (_, _, e) :: rest => lastEndOff e rest

/-- P1 / frame coverage, fully instantiated form used by the claim theorems. -/
def coverageProps (input : List Nat) (r : List Frame) : Prop :=
  (r.map Prod.fst).flatten = input
    ∧ offsetsChainB 0 r = true
    ∧ r ≠ []
    ∧ lastEndOff 0 r = input.length

/-- Split a byte list into lines, each line retaining its terminating newline;
    a trailing fragment without a terminator forms a final line.  This models
    iteration over a binary Python file object (`for line in fin`) and
    `readline` applied repeatedly. -/
def splitLines : List Nat → List (List Nat)
  | [] => []
  | b :: bs =>
    if b = NL then [b] :: splitLines bs
    else
      match splitLines bs with
      | [] => [[b]]
      | l :: ls => (b :: l) :: ls

/-- A byte list that is exactly one complete newline-terminated record: it
    ends with the line terminator and contains no other newline byte. -/
def isRecordLine (l : List Nat) : Bool :=
  l.count NL == 1 && l.getLast? == some NL

/-- One index entry, the five `|`-separated fields of the index line format
    `key|gzip_start_offset|gzip_length|line_start_offset|line_length`.  The
    key is kept as a byte string. -/
structure IdxEntry where
  key : List Nat
  frameStart : Nat
  frameLen : Nat
  lineStart : Nat
  lineLen : Nat
deriving DecidableEq, Repr

/-- The per-frame inner loop shared by `index_json_file` and `_repack`, which
    both walk one record per physical line: carry the running
    `(line_start, line_end)` pair and emit one entry per record.  `extractor`
    abstracts key extraction (the configured JSON field, or for the repacker
    the configured CSV column / JSON field applied to the single line). -/
def lineEntries (extractor : List Nat → List Nat) (fs fl : Nat) :
    List (List Nat) → Nat → List IdxEntry
  | [], _ => []
  | line :: rest, off =>
    ⟨extractor line, fs, fl, off, line.length⟩
      :: lineEntries extractor fs fl rest (off + line.length)

/-- Embedding of the indexer loop of `index_json_file`: for each frame triple
    produced by `_iterate_archives`, open a decompressing reader on the frame
    bytes (`decompress` abstracts the gzip/zstd codec), iterate its physical
    record lines (`for line in json_in`) and emit
    `key|frame_start|frame_len|line_start|line_len` entries.  `index_csv_file`
    is modelled separately (`index_csv_file` below), because its `csv.reader`
    can merge several physical lines into one row. -/
def index_file (frames : List Frame) (decompress : List Nat → List Nat)
    (extractor : List Nat → List Nat) : List IdxEntry :=
  (frames.map fun f =>
    lineEntries extractor f.2.1 (f.2.2 - f.2.1) (splitLines (decompress f.1)) 0).flatten

/-- The per-frame inner loop of `index_csv_file`.  `csv.reader` over the
    `_StreamWrapper` forms each row from one or more physical lines: a row
    spans several lines when a double-quoted field contains a newline (or a
    quote is left unbalanced); after the row is yielded,
    `csv_in.current_line` holds only the *last* physical line the reader
    consumed for it, so `line_end = line_start + len(current_line)` advances
    by that last line's length alone.  Each group of the partition is one
    row's physical lines; the emitted key is the configured column of the
    parsed row, abstracted as `rowExtractor` on the group. -/
def csvLineEntries (rowExtractor : List (List Nat) → List Nat) (fs fl : Nat) :
    List (List (List Nat)) → Nat → List IdxEntry
  | [], _ => []
  | g :: rest, off =>
    ⟨rowExtractor g, fs, fl, off, (g.getLastD []).length⟩
      :: csvLineEntries rowExtractor fs fl rest (off + (g.getLastD []).length)

/-- Embedding of the indexer loop of `index_csv_file`: as `index_file`, but
    the rows are produced by `csv.reader`, whose grouping of the frame's
    physical lines into rows is abstracted as `rowGroups` (a partition of the
    lines into consecutive groups; a group is a singleton exactly when the
    row is contained in one physical line). -/
def index_csv_file (frames : List Frame) (decompress : List Nat → List Nat)
    (rowGroups : List (List Nat) → List (List (List Nat)))
    (rowExtractor : List (List Nat) → List Nat) : List IdxEntry :=
  (frames.map fun f =>
    csvLineEntries rowExtractor f.2.1 (f.2.2 - f.2.1)
      (rowGroups (splitLines (decompress f.1))) 0).flatten

/-- The decompressed frame content `b"\"x\ny\"|a\nb|c\n"` on which
    `index_csv_file` emits entries that violate index fidelity: the first
    CSV row is `['x\ny', 'a']` and spans the first two physical lines. -/
def c1CsvFrame : List Nat :=
  [34, 120, 10, 121, 34, 124, 97, 10, 98, 124, 99, 10]

/-- The row formation `csv.reader` (delimiter `|`) performs on the physical
    lines of `c1CsvFrame`: the quoted field `"x\ny"` makes the reader pull a
    second line for the first row, and the remaining line forms the second
    row.  (On this frame `splitLines` yields three physical lines; the
    partition is the first two lines, then the third.) -/
def c1CsvGroups : List (List Nat) → List (List (List Nat)) :=
  fun lines => [lines.take 2, lines.drop 2]

/-- Column-0 extraction for the two rows `csv.reader` forms on `c1CsvFrame`:
    the first row's column 0 is `'x\ny'` (bytes `[120, 10, 121]`), the
    second row's column 0 is `'b'` (byte `[98]`). -/
def c1CsvKeys : List (List Nat) → List Nat :=
  fun g => if g.length = 2 then [120, 10, 121] else [98]

/-- Embedding of `_batch_iterator`'s accumulator loop: append each item and
    yield a batch whenever the accumulator length equals `batchSize`; a
    nonempty remainder is yielded at the end.  (With `batchSize = 0` the
    equality test never fires after an append, so the entire stream forms one
    final batch, exactly as in the source.) -/
def batchAux {α : Type} (batchSize : Nat) : List α → List α → List (List α)
  | [], acc => if acc.isEmpty then [] else [acc]
  | x :: xs, acc =>
    if (acc ++ [x]).length = batchSize then (acc ++ [x]) :: batchAux batchSize xs []
    else batchAux batchSize xs (acc ++ [x])

/-- `_batch_iterator` with `decode_lines=False`: batches of the raw items. -/
def batchIterator {α : Type} (batchSize : Nat) (xs : List α) : List (List α) :=
  batchAux batchSize xs []

/-- The ASCII whitespace bytes removed by `bytes.strip`. -/
def isSpaceByte (b : Nat) : Bool :=
  b = 9 ∨ b = 10 ∨ b = 11 ∨ b = 12 ∨ b = 13 ∨ b = 32

/-- Embedding of `bytes.strip()`: remove all leading and trailing ASCII
    whitespace (space, tab, newline, carriage return, vertical tab, form
    feed). -/
def stripBytes (l : List Nat) : List Nat :=
  ((l.dropWhile isSpaceByte).reverse.dropWhile isSpaceByte).reverse

/-- `_batch_iterator` with `decode_lines=True`, as used by `retrieve` on the
    keys stream: every line is stripped before batching.  The subsequent
    UTF-8 `decode` is injective, so keys are kept as byte strings here. -/
def batchIteratorDecoded (batchSize : Nat) (xs : List (List Nat)) : List (List (List Nat)) :=
  batchAux batchSize (xs.map stripBytes) []

/-- Embedding of `_determine_compression_from_header`: inspect the leading
    bytes of the stream. -/
def determine_compression_from_header (bs : List Nat) : Compression :=
  if GZIP_HEADER.isPrefixOf bs then .GZIP
  else if ZSTD_HEADER.isPrefixOf bs then .ZSTD
  else .NONE

/-- The exceptions with which `_repack` can abort. -/
inductive RepackError where
  | assertionError
  | attributeError
deriving DecidableEq, Repr

/-- The per-batch body of `_repack`: write every record of the batch
    byte-identically into a fresh compressed writer over an in-memory buffer
    (the frame's uncompressed content is the concatenation of the batch),
    track `(line_start, line_end)` per record, and once the writer is closed
    emit one `key|start|frame_len|line_start|line_len` entry per record.
    `compress` abstracts the gzip/zstd writer, applied to the full
    uncompressed frame content. -/
def repackBatch (extractor : List Nat → List Nat) (compress : List Nat → List Nat)
    (batch : List (List Nat)) (startOff : Nat) : List Nat × List IdxEntry :=
  let frame := compress batch.flatten
  (frame, lineEntries extractor startOff frame.length batch 0)

/-- The batch loop of `_repack`: emit one frame per batch, with
    `start_offset = previous end_offset` and `end_offset = start_offset +`
    the compressed frame's byte count, concatenating frames into the data
    sink and entries into the index sink. -/
def repackFold (extractor : List Nat → List Nat) (compress : List Nat → List Nat) :
    List (List (List Nat)) → Nat → List Nat × List IdxEntry
  | [], _ => ([], [])
  | batch :: rest, endOff =>
    let fe := repackBatch extractor compress batch endOff
    let tail := repackFold extractor compress rest (endOff + fe.1.length)
    (fe.1 ++ tail.1, fe.2 ++ tail.2)

/-- Embedding of `_repack`.  The input compression is detected from the
    stream's header and asserted supported, as is the requested output
    compression; `inputDecompress` abstracts the decompressing reader over
    the whole input stream, whose lines are batched by `_batch_iterator`.
    When the input yields no records, `compressed_chunk` is still `None`
    after the loop and the source enters its empty-input branch: it rebinds
    `fout` to a fresh in-memory `BytesIO` (so the real data sink can never
    receive the empty frame), writes an empty **zstd** frame into that buffer
    regardless of `output_compression`, and then raises `AttributeError`,
    because `zstandard.open(fout, mode='wb').write(b'')` returns an `int` and
    the code calls `.close()` on that integer.  That aborted path is modelled
    as `Except.error attributeError`; nothing is written to either sink. -/
def repack (fin : List Nat) (inputDecompress : List Nat → List Nat) (chunkSize : Nat)
    (extractor : List Nat → List Nat) (compress : List Nat → List Nat)
    (outputCompression : Compression) : Except RepackError (List Nat × List IdxEntry) :=
  if determine_compression_from_header fin = .NONE then .error .assertionError
  else if outputCompression = .NONE then .error .assertionError
  else
    let batches := batchIterator chunkSize (splitLines (inputDecompress fin))
    if batches.isEmpty then .error .attributeError
    else .ok (repackFold extractor compress batches 0)

/-- The greatest index of `l` holding byte `b`, as computed by the
    `max([i for (i, c) in enumerate(buf) if c == ord(lineterminator)])`
    expression of `_start_of_line`; `none` when `b` does not occur. -/
def lastIdxOf (b : Nat) (l : List Nat) : Option Nat :=
  ((List.range l.length).filter (fun i => l.getD i 0 = b)).getLast?

/-- Embedding of `_start_of_line`: move the position back to the start of the
    current line.  The source repeatedly reads a lookbehind buffer ending at
    `pos` (initial size `io.DEFAULT_BUFFER_SIZE`, doubled while no newline is
    found and the buffer does not yet reach offset 0), then seeks to one past
    the last newline of the buffer, or to 0 when the full prefix holds no
    newline.  Every lookbehind buffer is a suffix of `content[0:pos]` and the
    loop stops at the first buffer containing a newline, whose last newline is
    the last newline of the whole prefix, so the loop computes exactly: one
    past the last newline strictly before `pos`, and 0 when there is none. -/
def start_of_line (content : List Nat) (pos : Nat) : Nat :=
  match lastIdxOf NL (content.take pos) with
  | some i => i + 1
  | none => 0

/-- A `readline` on a byte stream positioned at `pos`: the bytes up to and
    including the next newline (or to EOF), together with the position after
    the read. -/
def readlineFrom (content : List Nat) (pos : Nat) : List Nat × Nat :=
  let rest := content.drop pos
  match rest.findIdx? (· = NL) with
  | some i => (rest.take (i + 1), pos + i + 1)
  | none => (rest, pos + rest.length)

/-- Embedding of `_buffer_chunk`: read the chunk `[start, end)` into memory,
    extended left to the start of its first line and right to the end of its
    last line, and translate the coordinates into the buffer's system.  The
    returned tuple is `(buffer, start, end, pivot)` as in the source.  When
    the initial read is empty, `buf.seek(-1, io.SEEK_END)` raises
    `ValueError`, modelled as `none`.  The translated pivot
    `pivot - start + left_shift` is computed as `pivot + left_shift - start`,
    which agrees with the source's integer arithmetic whenever the pivot lies
    inside the buffered region (`pivot ≥` the line start), as at every call
    site. -/
def buffer_chunk (content : List Nat) (start endPos pivot : Nat) :
    Option (List Nat × Nat × Nat × Nat) :=
  let ls := start_of_line content start
  let leftShift := start - ls
  let size := (endPos - start) + leftShift
  let buf := (content.drop ls).take size
  if buf.isEmpty then none
  else
    let buf2 :=
      if buf.getLast? = some NL then buf
      else buf ++ (readlineFrom content (ls + buf.length)).1
    some (buf2, 0, buf2.length, pivot + leftShift - start)

/-- Embedding of `_is_last_line`: the slice `[start, end)` of the stream
    contains no newline. -/
def is_last_line (content : List Nat) (start endPos : Nat) : Bool :=
  ((content.drop start).take (endPos - start)).count NL == 0

/-- Embedding of `line.split(delimiter, 1)` when the delimiter occurs: the
    part before the first delimiter and the remainder.  When the delimiter is
    absent the unpacking `candidate, rest = line.split(...)` raises
    `ValueError`, so the caller treats `none` as a crash. -/
def splitOnceAt (delim : Nat) (l : List Nat) : Option (List Nat × List Nat) :=
  match l.findIdx? (· = delim) with
  | some i => some (l.take i, l.drop (i + 1))
  | none => none

/-- Embedding of `bytes.split(delimiter)` (full split). -/
def splitAllAt (delim : Nat) : List Nat → List (List Nat)
  | [] => [[]]
  | b :: bs =>
    if b = delim then [] :: splitAllAt delim bs
    else
      match splitAllAt delim bs with
      | [] => [[b]]
      | l :: ls => (b :: l) :: ls

/-- Embedding of `bytes.rstrip(lineterminator)`: drop every trailing
    occurrence of the byte `t`. -/
def rstripAll (t : Nat) (l : List Nat) : List Nat :=
  (l.reverse.dropWhile (· = t)).reverse

/-- Byte-lexicographic strict order on byte strings (Python `bytes` `<`). -/
def lexLt : List Nat → List Nat → Bool
  | [], [] => false
  | [], _ :: _ => true
  | _ :: _, [] => false
  | a :: as, b :: bs => if a < b then true else if b < a then false else lexLt as bs

/-- The mutable state of the `_binary_search` loop: the seekable stream's
    content (replaced when the search buffers a chunk in memory), the
    `start`/`pivot`/`end` triple, the `buffered` flag and the `seen` set of
    visited triples (kept as a list; only membership and size matter). -/
structure BSState where
  content : List Nat
  start : Nat
  pivot : Nat
  endPos : Nat
  buffered : Bool
  seen : List (Nat × Nat × Nat)
deriving DecidableEq, Repr

/-- The outcome of `_binary_search`: the four trailing fields of a matching
    entry, a `KeyError` (KeyNotFound), the `assert ... not in seen` failure
    (`panic`), a `ValueError` crash from `split`/`_buffer_chunk`, or fuel
    exhaustion carrying the final state (used only to reason about the loop;
    sufficient fuel never reaches it). -/
inductive BSResult where
  | found (fields : List (List Nat))
  | keyNotFound (key : List Nat)
  | panic
  | crash
  | outOfFuel (st : BSState)
deriving DecidableEq, Repr

/-- One iteration of the `while True` loop of `_binary_search`.  `fsize` is
    the size parameter passed by the caller and `bufferBytes` is
    `buffer_size * 1024`.  The iteration: assert the triple unseen, record
    it, seek to the pivot, walk back to the line start, read one line, split
    at the first delimiter, and either return the remaining fields, raise
    `KeyError` at EOF or on the buffered last-line check, or narrow the range
    and, when the unbuffered scope has become small, buffer it in memory.
    `Sum.inl` is an exit from the loop; `Sum.inr` is the next state. -/
def bsStep (key : List Nat) (fsize bufferBytes : Nat) (st : BSState) :
    BSResult ⊕ BSState :=
  if (st.start, st.pivot, st.endPos) ∈ st.seen then .inl .panic
  else
    let seen' := st.seen ++ [(st.start, st.pivot, st.endPos)]
    let pos := start_of_line st.content st.pivot
    let lr := readlineFrom st.content pos
    match splitOnceAt PIPE lr.1 with
    | none => .inl .crash
    | some cr =>
      if cr.1 = key then .inl (.found (splitAllAt PIPE (rstripAll NL cr.2)))
      else if lr.2 = fsize then .inl (.keyNotFound key)
      else if st.buffered ∧ lr.2 > st.endPos ∧ is_last_line st.content st.start st.endPos then
        .inl (.keyNotFound key)
      else
        let next :=
          if lexLt key cr.1 then (st.start, (st.pivot + st.start) / 2, st.pivot)
          else (st.pivot, (st.pivot + st.endPos) / 2, st.endPos)
        if ¬ st.buffered ∧ next.2.2 - next.1 < bufferBytes then
          match buffer_chunk st.content next.1 next.2.2 next.2.1 with
          | none => .inl .crash
          | some b => .inr ⟨b.1, b.2.1, b.2.2.2, b.2.2.1, true, seen'⟩
        else
          .inr ⟨st.content, next.1, next.2.1, next.2.2, st.buffered, seen'⟩

/-- The `while True` loop of `_binary_search`, iterating `bsStep`. -/
def bsLoop (key : List Nat) (fsize bufferBytes : Nat) : Nat → BSState → BSResult
  | 0, st => .outOfFuel st
  | fuel + 1, st =>
    match bsStep key fsize bufferBytes st with
    | .inl r => r
    | .inr st' => bsLoop key fsize bufferBytes fuel st'

/-- Embedding of `_binary_search`: when the index is smaller than
    `buffer_size` KiB the whole stream is read into memory up front (the
    content is unchanged; only the `buffered` flag is set), then the loop
    runs from `start=0, pivot=fsize/2, end=fsize` with an empty visited
    set. -/
def binary_search (key content : List Nat) (fsize bufferKiB fuel : Nat) : BSResult :=
  bsLoop key fsize (bufferKiB * 1024) fuel
    ⟨content, 0, fsize / 2, fsize, fsize < bufferKiB * 1024, []⟩

/-- Append a matching index row to the group of its frame start offset,
    creating a new group at the end when the offset is new: the insertion
    behaviour of `collections.defaultdict(list)` under Python's
    insertion-ordered dict iteration. -/
def addToGroup : List (Nat × List IdxEntry) → IdxEntry → List (Nat × List IdxEntry)
  | [], row => [(row.frameStart, [row])]
  | (off, g) :: rest, row =>
    if off = row.frameStart then (off, g ++ [row]) :: rest
    else (off, g) :: addToGroup rest row

/-- Embedding of `_scan_index`: walk the index rows once, group the rows whose
    key is in the batch by frame start offset, and compute the missing keys
    (`keys - keys_seen`), which are logged as an error but do not abort. -/
def scan_index (keys : List (List Nat)) (rows : List IdxEntry) :
    List (Nat × List IdxEntry) × List (List Nat) :=
  (rows.foldl (fun acc row => if row.key ∈ keys then addToGroup acc row else acc) [],
   keys.filter (fun k => rows.all (fun r => r.key ≠ k)))

/-- The inner row loop of `retrieve` over one decompressed frame: seek to the
    row's line offset, read `line_len` bytes and write them to the output;
    a key already displayed in this batch logs a multiple-matches error but
    the record is still written.  Returns the written bytes, the
    duplicate-logged keys and the updated displayed set. -/
def retrieveRows (decChunk : List Nat) :
    List IdxEntry → List (List Nat) → List Nat × List (List Nat) × List (List Nat)
  | [], displayed => ([], [], displayed)
  | row :: rest, displayed =>
    let line := (decChunk.drop row.lineStart).take row.lineLen
    let dup := if row.key ∈ displayed then [row.key] else []
    let tail := retrieveRows decChunk rest (displayed ++ [row.key])
    (line ++ tail.1, dup ++ tail.2.1, tail.2.2)

/-- The group loop of `retrieve`: for each frame group, read the frame's
    compressed bytes with one ranged read at the offsets of the group's first
    row, open a decompressing reader on them, and emit every member row's
    record.  The `displayed` set is threaded across groups of the batch. -/
def retrieveGroups (file : List Nat) (decompress : List Nat → List Nat) :
    List (Nat × List IdxEntry) → List (List Nat) → List Nat × List (List Nat)
  | [], _ => ([], [])
  | (_, g) :: rest, displayed =>
    match g with
    | [] => retrieveGroups file decompress rest displayed
    | g0 :: _ =>
      let chunk := (file.drop g0.frameStart).take g0.frameLen
      let dec := decompress chunk
      let rr := retrieveRows dec g displayed
      let tail := retrieveGroups file decompress rest rr.2.2
      (rr.1 ++ tail.1, rr.2.1 ++ tail.2)

/-- One batch of `retrieve`: scan the index, then walk the groups.  Returns
    the output bytes, the duplicate-logged keys, and the missing keys logged
    at the end of the index scan. -/
def retrieve_batch (file : List Nat) (decompress : List Nat → List Nat)
    (keys : List (List Nat)) (rows : List IdxEntry) :
    List Nat × List (List Nat) × List (List Nat) :=
  let si := scan_index keys rows
  let rg := retrieveGroups file decompress si.1 []
  (rg.1, rg.2, si.2)

/-- The batch loop of `retrieve`.  The index stream is a file object consumed
    by the first `_scan_index` call, so every batch after the first scans an
    exhausted stream and sees no rows. -/
def retrieveLoop (file : List Nat) (decompress : List Nat → List Nat) :
    List (List (List Nat)) → List IdxEntry → List Nat × List (List Nat) × List (List Nat)
  | [], _ => ([], [], [])
  | batch :: rest, rows =>
    let rb := retrieve_batch file decompress batch rows
    let tail := retrieveLoop file decompress rest []
    (rb.1 ++ tail.1, rb.2.1 ++ tail.2.1, rb.2.2 ++ tail.2.2)

/-- Embedding of `retrieve`: batch the stripped key lines
    (`_batch_iterator(keys_fin, decode_lines=True)` with the 5000-record
    batch limit) and process each batch. -/
def retrieve (keyLines : List (List Nat)) (file : List Nat)
    (decompress : List Nat → List Nat) (rows : List IdxEntry) :
    List Nat × List (List Nat) × List (List Nat) :=
  retrieveLoop file decompress (batchIteratorDecoded 5000 keyLines) rows

/-- The two paths touched by `sort_file`: the index file's own path and the
    temporary path produced by `tempfile.mkstemp`. -/
structure SortFS where
  orig : Option (List Nat)
  tmp : Option (List Nat)
deriving DecidableEq, Repr

/-- `sorted_handle, tmp_path = tempfile.mkstemp(prefix='gzipi')`: an empty
    temporary file is created. -/
def sortStepMkstemp (fs : SortFS) : SortFS :=
  { fs with tmp := some [] }

/-- `shutil.move(file_path, tmp_path)`: the original index is moved aside to
    the temporary path before the sort pipeline runs. -/
def sortStepMove (fs : SortFS) : SortFS :=
  { orig := none, tmp := fs.orig }

/-- The sort pipeline `(cat tmp | sort) > file_path` (or its gzip variant):
    the shell redirect creates/truncates the destination when the pipeline
    starts; on success it holds `pipe` of the temporary's content, on failure
    it holds whatever partial output was flushed (`partialOut`) and the
    exception propagates. -/
def sortStepPipe (fs : SortFS) (pipe : List Nat → List Nat) (partialOut : List Nat)
    (ok : Bool) : SortFS :=
  if ok then { fs with orig := some (pipe (fs.tmp.getD [])) }
  else { fs with orig := some partialOut }

/-- `finally: os.remove(tmp_path)`: the temporary file is removed whether the
    pipeline succeeded or failed. -/
def sortStepRemoveTmp (fs : SortFS) : SortFS :=
  { fs with tmp := none }

/-- Embedding of `sort_file` as the sequence of its file-system effects; the
    returned flag is whether the pipeline succeeded (on `false` the function
    re-raises after the `finally` cleanup). -/
def sort_file (fs : SortFS) (pipe : List Nat → List Nat) (partialOut : List Nat)
    (ok : Bool) : SortFS × Bool :=
  (sortStepRemoveTmp (sortStepPipe (sortStepMove (sortStepMkstemp fs)) pipe partialOut ok), ok)

/-- The byte slice `[off, off + len)` of a byte string. -/
def sliceD (bs : List Nat) (off len : Nat) : List Nat :=
  (bs.drop off).take len

/-- Specification of the duplicate-error log of one `retrieve` batch: walking
    the written rows in order while carrying the `displayed` set, every row
    whose key was already displayed contributes one logged key. -/
def dupScan : List IdxEntry → List (List Nat) → List (List Nat)
  | [], _ => []
  | r :: rest, displayed =>
    (if r.key ∈ displayed then [r.key] else []) ++ dupScan rest (displayed ++ [r.key])

/-- Concrete two-member gzip stream used to instantiate the indexer-side
    fidelity theorem: two plausible gzip headers (timestamp 2010-01-01, OS
    byte 3) each followed by a payload byte and a newline. -/
def c1wInput : List Nat :=
  [0x1f, 0x8b, 0x08, 0, 0x10, 0x49, 0x3D, 0x4B, 0, 3, 65, 10]
    ++ [0x1f, 0x8b, 0x08, 0, 0x10, 0x49, 0x3D, 0x4B, 0, 3, 66, 10]

/-- Concrete one-record input stream used to instantiate the repacker-side
    fidelity theorem (gzip magic followed by one newline-terminated byte). -/
def c1wFin : List Nat := [0x1f, 0x8b, 0x08, 65, 10]

/-- Index fidelity of one entry against a data file: decompressing the
    frame slice `[frameStart, frameStart + frameLen)` of the data file and
    taking bytes `[lineStart, lineStart + lineLen)` of the result yields
    exactly one complete newline-terminated record whose extracted key is the
    entry's key. -/
def entryFidelity (data : List Nat) (decompress extractor : List Nat → List Nat)
    (entry : IdxEntry) : Prop :=
  isRecordLine
      (sliceD (decompress (sliceD data entry.frameStart entry.frameLen))
        entry.lineStart entry.lineLen) = true
    ∧ extractor
        (sliceD (decompress (sliceD data entry.frameStart entry.frameLen))
          entry.lineStart entry.lineLen) = entry.key

/-- The key column of every line of an index stream (the part before the
    first `|`; a line without a delimiter stands for itself). -/
def keysOfIndex (content : List Nat) : List (List Nat) :=
  (splitLines content).map (fun l => ((splitOnceAt PIPE l).map Prod.fst).getD l)

/-- A list of byte-string keys is sorted ascending in byte-lexicographic
    order. -/
def isSortedAsc : List (List Nat) → Bool
  | [] => true
  | [_] => true
  | a :: b :: rest => (lexLt a b || a == b) && isSortedAsc (b :: rest)

/-- The four-entry sorted index `b"a|1\nb|2\nc|3\nd|4\n"` on which the
    binary-search loop assertion trips for the query `b"bb"`. -/
def c6Index : List Nat :=
  [97, 124, 49, 10, 98, 124, 50, 10, 99, 124, 51, 10, 100, 124, 52, 10]

/-- `b"key1|0|100|300|500\n"` (19 bytes), first line of `BufferChunkTest`. -/
def c7l1 : List Nat :=
  [107, 101, 121, 49, 124, 48, 124, 49, 48, 48, 124, 51, 48, 48, 124, 53, 48, 48, 10]

/-- `b"key2|0|100|400|1500\n"` (20 bytes), second line of `BufferChunkTest`. -/
def c7l2 : List Nat :=
  [107, 101, 121, 50, 124, 48, 124, 49, 48, 48, 124, 52, 48, 48, 124, 49, 53, 48, 48, 10]

/-- `b"key3|0|200|400|1500\n"` (20 bytes), third line of `BufferChunkTest`. -/
def c7l3 : List Nat :=
  [107, 101, 121, 51, 124, 48, 124, 50, 48, 48, 124, 52, 48, 48, 124, 49, 53, 48, 48, 10]

/-- `b"key4|0|200|400|1500\n"` (20 bytes), fourth line of `BufferChunkTest`. -/
def c7l4 : List Nat :=
  [107, 101, 121, 52, 124, 48, 124, 50, 48, 48, 124, 52, 48, 48, 124, 49, 53, 48, 48, 10]

/-- The four-line stream of `BufferChunkTest`. -/
def c7Stream : List Nat := c7l1 ++ c7l2 ++ c7l3 ++ c7l4

theorem rfind_le_length {hay needle : List Nat} {p : Nat} (h : rfind hay needle = some p) :
    p ≤ hay.length := by
  unfold rfind at h
  have hx : p ∈ (occurrencesAt hay needle).getLast? := Option.mem_def.mpr h
  obtain ⟨hne, heq⟩ := List.mem_getLast?_eq_getLast hx
  have hmem : p ∈ occurrencesAt hay needle := heq ▸ List.getLast_mem hne
  unfold occurrencesAt at hmem
  have h1 := (List.mem_filter.mp hmem).1
  have h2 := List.mem_range.mp h1
  omega

theorem lastEndOff_of_chain :
    ∀ (l : List Frame) (off : Nat), offsetsChainB off l = true →
      lastEndOff off l = off + ((l.map Prod.fst).flatten).length := by
  intro l
  induction l with
  | nil => intro off _; simp [lastEndOff]
  | cons f rest ih =>
    intro off hch
    obtain ⟨bs, s, e⟩ := f
    simp only [offsetsChainB, Bool.and_eq_true, beq_iff_eq] at hch
    obtain ⟨⟨hs, he⟩, hrest⟩ := hch
    simp only [lastEndOff, List.map_cons, List.flatten_cons, List.length_append]
    rw [ih e hrest]
    omega

theorem iterArchives_cover (vh : List Nat → Bool) (hdr : List Nat) (hl bufSize : Nat)
    (hb : bufSize ≠ 0) :
    ∀ (fuel : Nat) (input : List Nat), input.length < fuel →
      ∀ (archive : List Nat) (endOff : Nat),
      ((iterArchives vh hdr hl bufSize fuel input archive endOff).map Prod.fst).flatten
          = archive ++ input
        ∧ offsetsChainB endOff (iterArchives vh hdr hl bufSize fuel input archive endOff) = true
        ∧ iterArchives vh hdr hl bufSize fuel input archive endOff ≠ [] := by
  intro fuel
  induction fuel with
  | zero =>
    intro input hlen
    omega
  | succ n ih =>
    intro input hlen archive endOff
    rw [iterArchives]
    by_cases hc : (input.take bufSize).isEmpty
    · have hnil : input.take bufSize = [] := List.isEmpty_iff.mp hc
      simp only [if_pos hc]
      have hinput : input = [] := by
        rcases List.take_eq_nil_iff.mp hnil with h0 | h0
        · exact absurd h0 hb
        · exact h0
      subst hinput
      simp [offsetsChainB]
    · have hne : input.take bufSize ≠ [] := fun hx => hc (List.isEmpty_iff.mpr hx)
      have hinp : input ≠ [] := by
        rintro rfl
        simp at hne
      have hlen' : (input.drop bufSize).length < n := by
        simp only [List.length_drop]
        have hpos : 0 < input.length := List.length_pos.mpr hinp
        omega
      have harch : archive ++ input.take bufSize ++ input.drop bufSize = archive ++ input := by
        rw [List.append_assoc, List.take_append_drop]
      simp only [if_neg hc]
      split
      · obtain ⟨hj, hch, hnil⟩ := ih (input.drop bufSize) hlen' (archive ++ input.take bufSize) endOff
        exact ⟨by rw [hj, harch], hch, hnil⟩
      · split
        · obtain ⟨hj, hch, hnil⟩ := ih (input.drop bufSize) hlen' (archive ++ input.take bufSize) endOff
          exact ⟨by rw [hj, harch], hch, hnil⟩
        · rename_i p hp
          split
          · obtain ⟨hj, hch, hnil⟩ := ih (input.drop bufSize) hlen' (archive ++ input.take bufSize) endOff
            exact ⟨by rw [hj, harch], hch, hnil⟩
          · obtain ⟨hj, hch, hnil⟩ :=
              ih (input.drop bufSize) hlen' ((archive ++ input.take bufSize).drop p) (endOff + p)
            have hple : p ≤ (archive ++ input.take bufSize).length := rfind_le_length hp
            refine ⟨?_, ?_, by simp⟩
            · simp only [List.map_cons, List.flatten_cons]
              rw [hj]
              rw [← List.append_assoc, List.take_append_drop, harch]
            · have hlt : ((archive ++ input.take bufSize).take p).length = p := by
                rw [List.length_take]
                omega
              simp [offsetsChainB, hlt, hch]

theorem iterate_archives_coverage (input : List Nat) (bufSize : Nat) (now : Int)
    (c : Compression) (hb : 0 < bufSize) (hc : c ≠ .NONE) :
    coverageProps input (iterate_archives input bufSize c now) := by
  have main : ∀ (vh : List Nat → Bool) (hdr : List Nat) (hl : Nat),
      coverageProps input (iterArchives vh hdr hl bufSize (input.length + 1) input [] 0) := by
    intro vh hdr hl
    obtain ⟨hj, hch, hnil⟩ :=
      iterArchives_cover vh hdr hl bufSize (Nat.pos_iff_ne_zero.mp hb)
        (input.length + 1) input (Nat.lt_succ_self _) [] 0
    refine ⟨by simpa using hj, hch, hnil, ?_⟩
    rw [lastEndOff_of_chain _ 0 hch, hj]
    simp
  cases c with
  | NONE => exact absurd rfl hc
  | GZIP => exact main _ _ _
  | ZSTD => exact main _ _ _

/-- C2: frame coverage.  For every input byte stream, positive read buffer
    size, clock value and declared compression kind (gzip or zstd), the triples
    yielded by `_iterate_archives` concatenate byte-for-byte to the entire
    input, are contiguous and in order starting at offset 0, and the last end
    offset equals the total input size. -/
theorem c2_frame_coverage (input : List Nat) (bufSize : Nat) (now : Int)
    (hb : 0 < bufSize) :
    coverageProps input (iterate_archives input bufSize .GZIP now)
      ∧ coverageProps input (iterate_archives input bufSize .ZSTD now) :=
  ⟨iterate_archives_coverage input bufSize now .GZIP hb (by simp),
   iterate_archives_coverage input bufSize now .ZSTD hb (by simp)⟩

/-- C2 witness: the coverage property evaluated on a concrete stream with a
    concrete buffer size. -/
theorem c2_frame_coverage_witness :
    0 < 2 ∧ (coverageProps [1, 2, 3] (iterate_archives [1, 2, 3] 2 .GZIP 0)
      ∧ coverageProps [1, 2, 3] (iterate_archives [1, 2, 3] 2 .ZSTD 0)) :=
  ⟨by decide, c2_frame_coverage [1, 2, 3] 2 0 (by decide)⟩

/-- C5 counterexample: a zstd frame header descriptor byte `0x20` has
    Single_Segment_flag (bit 5) set and Reserved/Unused bits (bits 3 and 4)
    clear, so the claim says the validator accepts it, but
    `_is_valid_zstd_header` rejects it; conversely descriptor `0x04` has
    Single_Segment_flag clear (so the claim says reject) yet the validator
    accepts it, because the code tests bit 2, not bit 5. -/
theorem c5_counterexample :
    zstdSpecValid 0x20 = true
      ∧ is_valid_zstd_header [0x28, 0xb5, 0x2f, 0xfd, 0x20] = some false
      ∧ zstdSpecValid 0x04 = false
      ∧ is_valid_zstd_header [0x28, 0xb5, 0x2f, 0xfd, 0x04] = some true := by
  decide

/-- C5 amended: `_is_valid_gzip_header` accepts exactly the candidates of
    length at least 10 whose bytes 4..8, read as a little-endian signed 32-bit
    integer, lie in `[1262307600, now]` and whose OS byte is in
    `{0x00, 0x03, 0x07, 0xFF}`; `_is_valid_zstd_header` applies
    `zstd_flag_check` to byte 4 of the candidate, accepting exactly the
    descriptor bytes whose bits 4 and 3 (Unused_bit and Reserved_bit) are zero
    and whose bit 2 (the Content_Checksum_flag position, not the
    Single_Segment_flag) is one. -/
theorem c5_amended :
    (∀ (header : List Nat) (now : Int),
        is_valid_gzip_header header now = true ↔
          (GZIP_HEADER_LENGTH ≤ header.length
            ∧ OLDEST_UNIX_TIMESTAMP
                ≤ signed32 (header.getD 4 0) (header.getD 5 0) (header.getD 6 0) (header.getD 7 0)
            ∧ signed32 (header.getD 4 0) (header.getD 5 0) (header.getD 6 0) (header.getD 7 0)
                ≤ now
            ∧ header.getD 9 0 ∈ POSSIBLE_OS_TYPES))
      ∧ (∀ (b0 b1 b2 b3 b4 : Nat) (rest : List Nat),
          is_valid_zstd_header (b0 :: b1 :: b2 :: b3 :: b4 :: rest)
            = some (zstd_flag_check b4))
      ∧ (∀ b : Nat,
          zstd_flag_check b = true ↔ (bitOf b 4 = 0 ∧ bitOf b 3 = 0 ∧ bitOf b 2 = 1)) := by
  refine ⟨?_, ?_, ?_⟩
  · intro header now
    unfold is_valid_gzip_header
    split_ifs with h1 h2 h3 <;> simp_all <;> omega
  · intro b0 b1 b2 b3 b4 rest
    simp [is_valid_zstd_header]
  · intro b
    simp [zstd_flag_check]

theorem splitLines_flatten : ∀ bs : List Nat, (splitLines bs).flatten = bs := by
  intro bs
  induction bs with
  | nil => rfl
  | cons b bs ih =>
    by_cases hb : b = NL
    · subst hb
      simp [splitLines, ih]
    · simp only [splitLines, if_neg hb]
      cases h : splitLines bs with
      | nil =>
        have hbs : bs = [] := by
          have := ih
          rw [h] at this
          simpa using this.symm
        subst hbs
        simp
      | cons l ls =>
        rw [h] at ih
        simp only [List.flatten_cons] at ih ⊢
        simp [ih]

theorem splitLines_ne_nil : ∀ (bs l : List Nat), l ∈ splitLines bs → l ≠ [] := by
  intro bs
  induction bs with
  | nil => simp [splitLines]
  | cons b bs ih =>
    intro l hl
    by_cases hb : b = NL
    · simp only [splitLines, if_pos hb] at hl
      rcases List.mem_cons.mp hl with rfl | hl
      · simp
      · exact ih l hl
    · simp only [splitLines, if_neg hb] at hl
      cases h : splitLines bs with
      | nil =>
        rw [h] at hl
        simp only [List.mem_singleton] at hl
        subst hl
        simp
      | cons m ms =>
        rw [h] at hl
        rcases List.mem_cons.mp hl with rfl | hl
        · simp
        · exact ih l (h ▸ List.mem_cons_of_mem m hl)

theorem splitLines_eq_nil (bs : List Nat) (h : splitLines bs = []) : bs = [] := by
  have := splitLines_flatten bs
  rw [h] at this
  simpa using this.symm

theorem splitLines_no_inner_nl :
    ∀ (bs l : List Nat), l ∈ splitLines bs → ∀ x ∈ l.dropLast, x ≠ NL := by
  intro bs
  induction bs with
  | nil => simp [splitLines]
  | cons b bs ih =>
    intro l hl x hx
    by_cases hb : b = NL
    · simp only [splitLines, if_pos hb] at hl
      rcases List.mem_cons.mp hl with rfl | hl
      · simp at hx
      · exact ih l hl x hx
    · simp only [splitLines, if_neg hb] at hl
      cases h : splitLines bs with
      | nil =>
        rw [h] at hl
        simp only [List.mem_singleton] at hl
        subst hl
        simp at hx
      | cons m ms =>
        rw [h] at hl
        rcases List.mem_cons.mp hl with rfl | hl
        · have hmne : m ≠ [] := splitLines_ne_nil bs m (h ▸ List.mem_cons_self m ms)
          obtain ⟨m0, m1, rfl⟩ : ∃ m0 m1, m = m0 :: m1 := by
            cases m with
            | nil => exact absurd rfl hmne
            | cons m0 m1 => exact ⟨m0, m1, rfl⟩
          rw [List.dropLast_cons₂] at hx
          rcases List.mem_cons.mp hx with rfl | hx
          · exact hb
          · exact ih (m0 :: m1) (h ▸ List.mem_cons_self _ ms) x
              (by simpa using hx)
        · exact ih l (h ▸ List.mem_cons_of_mem m hl) x hx

theorem splitLines_last_nl :
    ∀ (bs : List Nat), bs.getLast? = some NL →
      ∀ l ∈ splitLines bs, l.getLast? = some NL := by
  intro bs
  induction bs with
  | nil => simp
  | cons b bs ih =>
    intro hlast l hl
    cases hbs : bs with
    | nil =>
      subst hbs
      simp only [List.getLast?_singleton] at hlast
      have hb : b = NL := by simpa using hlast
      simp only [splitLines, if_pos hb] at hl
      rcases List.mem_cons.mp hl with rfl | hl
      · simpa using hlast
      · simp [splitLines] at hl
    | cons c cs =>
      have hlast' : bs.getLast? = some NL := by
        rw [hbs] at hlast ⊢
        rwa [List.getLast?_cons_cons] at hlast
      by_cases hb : b = NL
      · simp only [splitLines, if_pos hb] at hl
        rcases List.mem_cons.mp hl with rfl | hl
        · simp [hb]
        · exact ih hlast' l hl
      · simp only [splitLines, if_neg hb] at hl
        cases h : splitLines bs with
        | nil =>
          have := splitLines_eq_nil bs h
          rw [this] at hbs
          cases hbs
        | cons m ms =>
          rw [h] at hl
          rcases List.mem_cons.mp hl with rfl | hl
          · have hm : m.getLast? = some NL := ih hlast' m (h ▸ List.mem_cons_self m ms)
            have hmne : m ≠ [] := splitLines_ne_nil bs m (h ▸ List.mem_cons_self m ms)
            obtain ⟨m0, m1, rfl⟩ : ∃ m0 m1, m = m0 :: m1 := by
              cases m with
              | nil => exact absurd rfl hmne
              | cons m0 m1 => exact ⟨m0, m1, rfl⟩
            rw [List.getLast?_cons_cons]
            exact hm
          · exact ih hlast' l (h ▸ List.mem_cons_of_mem m hl)

theorem splitLines_record (bs : List Nat) (hlast : bs.getLast? = some NL) :
    ∀ l ∈ splitLines bs, isRecordLine l = true := by
  intro l hl
  have h1 : l.getLast? = some NL := splitLines_last_nl bs hlast l hl
  have h2 : ∀ x ∈ l.dropLast, x ≠ NL := splitLines_no_inner_nl bs l hl
  have hsplit : l.dropLast ++ [NL] = l :=
    List.dropLast_append_getLast? NL (Option.mem_def.mpr h1)
  have hcount : l.count NL = 1 := by
    rw [← hsplit, List.count_append]
    have : l.dropLast.count NL = 0 :=
      List.count_eq_zero.mpr (fun hmem => h2 NL hmem rfl)
    simp [this]
  simp [isRecordLine, hcount, h1]

theorem chain_flatten_slice :
    ∀ (r : List Frame) (off : Nat) (buf : List Nat),
      offsetsChainB off r = true → (r.map Prod.fst).flatten = buf →
      ∀ f ∈ r, off ≤ f.2.1 ∧ f.1 = sliceD buf (f.2.1 - off) (f.2.2 - f.2.1) := by
  intro r
  induction r with
  | nil => simp
  | cons g rest ih =>
    intro off buf hch hbuf f hf
    obtain ⟨bs, s, e⟩ := g
    simp only [offsetsChainB, Bool.and_eq_true, beq_iff_eq] at hch
    obtain ⟨⟨hs, he⟩, hrest⟩ := hch
    subst hbuf
    simp only [List.map_cons, List.flatten_cons]
    rcases List.mem_cons.mp hf with rfl | hf
    · refine ⟨?_, ?_⟩
      · show off ≤ s
        omega
      · show bs = sliceD (bs ++ (rest.map Prod.fst).flatten) (s - off) (e - s)
        have h0 : s - off = 0 := by omega
        have h1 : e - s = bs.length := by omega
        simp [sliceD, h0, h1, List.take_left]
    · obtain ⟨hle, hslice⟩ := ih e ((rest.map Prod.fst).flatten) hrest rfl f hf
      refine ⟨by omega, ?_⟩
      have h2 : f.2.1 - off = bs.length + (f.2.1 - e) := by omega
      rw [hslice]
      simp only [sliceD]
      rw [h2, List.drop_append]

theorem lineEntries_mem (extr : List Nat → List Nat) (fs fl : Nat) :
    ∀ (ls : List (List Nat)) (off : Nat) (entry : IdxEntry),
      entry ∈ lineEntries extr fs fl ls off →
      ∃ pre line suf, ls = pre ++ line :: suf
        ∧ entry.key = extr line
        ∧ entry.frameStart = fs
        ∧ entry.frameLen = fl
        ∧ entry.lineStart = off + (pre.map List.length).sum
        ∧ entry.lineLen = line.length := by
  intro ls
  induction ls with
  | nil => simp [lineEntries]
  | cons line rest ih =>
    intro off entry hmem
    simp only [lineEntries, List.mem_cons] at hmem
    rcases hmem with rfl | hmem
    · exact ⟨[], line, rest, rfl, rfl, rfl, rfl, by simp, rfl⟩
    · obtain ⟨pre, l2, suf, hls, hk, hfs, hfl, hlst, hll⟩ := ih (off + line.length) entry hmem
      refine ⟨line :: pre, l2, suf, by simp [hls], hk, hfs, hfl, ?_, hll⟩
      rw [hlst]
      simp [Nat.add_assoc]

theorem lineEntries_sum (extr : List Nat → List Nat) (fs fl : Nat) :
    ∀ (ls : List (List Nat)) (off : Nat),
      ((lineEntries extr fs fl ls off).map IdxEntry.lineLen).sum = ls.flatten.length := by
  intro ls
  induction ls with
  | nil => intro off; rfl
  | cons line rest ih =>
    intro off
    simp [lineEntries, List.flatten_cons, ih]

theorem flatten_slice (pre : List (List Nat)) (line : List Nat) (suf : List (List Nat)) :
    sliceD (pre ++ line :: suf).flatten ((pre.map List.length).sum) line.length = line := by
  simp only [sliceD, List.flatten_append, List.flatten_cons]
  have h1 : (pre.map List.length).sum = pre.flatten.length := (List.length_join pre).symm
  rw [h1]
  rw [show pre.flatten ++ (line ++ suf.flatten) = pre.flatten ++ line ++ suf.flatten by
    simp [List.append_assoc]]
  rw [List.append_assoc pre.flatten line suf.flatten, List.drop_left]
  exact List.take_left line suf.flatten

theorem batchAux_flatten {α : Type} (bs : Nat) :
    ∀ (xs acc : List α), (batchAux bs xs acc).flatten = acc ++ xs := by
  intro xs
  induction xs with
  | nil =>
    intro acc
    by_cases h : acc.isEmpty
    · have : acc = [] := List.isEmpty_iff.mp h
      simp [batchAux, h, this]
    · simp [batchAux, h]
  | cons x xs ih =>
    intro acc
    simp only [batchAux]
    split
    · simp [ih]
    · rw [ih]
      simp

theorem repackFold_out (extr compress : List Nat → List Nat) :
    ∀ (batches : List (List (List Nat))) (off : Nat),
      (repackFold extr compress batches off).1
        = (batches.map (fun b => compress b.flatten)).flatten := by
  intro batches
  induction batches with
  | nil => intro off; rfl
  | cons batch rest ih =>
    intro off
    simp [repackFold, repackBatch, ih]

theorem repackFold_mem (extr compress : List Nat → List Nat) :
    ∀ (batches : List (List (List Nat))) (off : Nat) (entry : IdxEntry),
      entry ∈ (repackFold extr compress batches off).2 →
      ∃ bpre batch bsuf, batches = bpre ++ batch :: bsuf
        ∧ ∃ pre line suf, batch = pre ++ line :: suf
          ∧ entry.key = extr line
          ∧ entry.frameStart = off + ((bpre.map (fun b => (compress b.flatten).length)).sum)
          ∧ entry.frameLen = (compress batch.flatten).length
          ∧ entry.lineStart = (pre.map List.length).sum
          ∧ entry.lineLen = line.length := by
  intro batches
  induction batches with
  | nil => simp [repackFold]
  | cons batch rest ih =>
    intro off entry hmem
    simp only [repackFold, repackBatch, List.mem_append] at hmem
    rcases hmem with hmem | hmem
    · obtain ⟨pre, line, suf, hb, hk, hfs, hfl, hlst, hll⟩ :=
        lineEntries_mem extr off _ _ 0 entry hmem
      refine ⟨[], batch, rest, rfl, pre, line, suf, hb, hk, by rw [hfs]; simp, hfl, ?_, hll⟩
      rw [hlst]
      simp
    · obtain ⟨bpre, b2, bsuf, hbs, pre, line, suf, hb, hk, hfs, hfl, hlst, hll⟩ :=
        ih (off + (compress batch.flatten).length) entry hmem
      refine ⟨batch :: bpre, b2, bsuf, by simp [hbs], pre, line, suf, hb, hk, ?_, hfl, hlst, hll⟩
      rw [hfs]
      simp [Nat.add_assoc]

theorem index_file_fidelity (input : List Nat) (bufSize : Nat) (now : Int)
    (c : Compression) (decompress extractor : List Nat → List Nat)
    (hb : 0 < bufSize) (hc : c ≠ .NONE)
    (hterm : ∀ f ∈ iterate_archives input bufSize c now,
        decompress f.1 = [] ∨ (decompress f.1).getLast? = some NL) :
    ∀ entry ∈ index_file (iterate_archives input bufSize c now) decompress extractor,
      entryFidelity input decompress extractor entry := by
  intro entry hentry
  obtain ⟨hjoin, hchain, hne, hlast⟩ := iterate_archives_coverage input bufSize now c hb hc
  simp only [index_file, List.mem_flatten, List.mem_map] at hentry
  obtain ⟨le, ⟨f, hf, rfl⟩, hentry⟩ := hentry
  obtain ⟨pre, line, suf, hlines, hk, hfs, hfl, hlst, hll⟩ :=
    lineEntries_mem _ _ _ _ _ entry hentry
  obtain ⟨hoff, hslice⟩ := chain_flatten_slice _ 0 input hchain hjoin f hf
  have hframe : sliceD input entry.frameStart entry.frameLen = f.1 := by
    rw [hfs, hfl, hslice]
    simp
  have hmemline : line ∈ splitLines (decompress f.1) := by
    rw [hlines]
    simp
  have hrec : isRecordLine line = true := by
    rcases hterm f hf with hnil | hlast'
    · rw [hnil] at hmemline
      simp [splitLines] at hmemline
    · exact splitLines_record _ hlast' line hmemline
  have hD : decompress f.1 = (pre ++ line :: suf).flatten := by
    rw [← splitLines_flatten (decompress f.1), hlines]
  have hDslice : sliceD (decompress f.1) entry.lineStart entry.lineLen = line := by
    rw [hlst, hll, hD]
    simpa using flatten_slice pre line suf
  unfold entryFidelity
  rw [hframe, hDslice]
  exact ⟨hrec, hk.symm⟩

theorem csvLineEntries_singleton (rowExtractor : List (List Nat) → List Nat)
    (fs fl : Nat) :
    ∀ (lines : List (List Nat)) (off : Nat),
      csvLineEntries rowExtractor fs fl (lines.map fun l => [l]) off
        = lineEntries (fun l => rowExtractor [l]) fs fl lines off := by
  intro lines
  induction lines with
  | nil => intro off; rfl
  | cons l rest ih =>
    intro off
    simp only [List.map_cons, csvLineEntries, lineEntries, List.getLastD, ih,
      List.getLast_singleton]

theorem index_csv_file_fidelity (input : List Nat) (bufSize : Nat) (now : Int)
    (c : Compression) (decompress : List Nat → List Nat)
    (rowGroups : List (List Nat) → List (List (List Nat)))
    (rowExtractor : List (List Nat) → List Nat)
    (hb : 0 < bufSize) (hc : c ≠ .NONE)
    (hterm : ∀ f ∈ iterate_archives input bufSize c now,
        decompress f.1 = [] ∨ (decompress f.1).getLast? = some NL)
    (hsingle : ∀ f ∈ iterate_archives input bufSize c now,
        rowGroups (splitLines (decompress f.1))
          = (splitLines (decompress f.1)).map fun l => [l]) :
    ∀ entry ∈ index_csv_file (iterate_archives input bufSize c now) decompress
        rowGroups rowExtractor,
      entryFidelity input decompress (fun l => rowExtractor [l]) entry := by
  intro entry hentry
  have heq : index_csv_file (iterate_archives input bufSize c now) decompress
        rowGroups rowExtractor
      = index_file (iterate_archives input bufSize c now) decompress
          (fun l => rowExtractor [l]) := by
    unfold index_csv_file index_file
    congr 1
    apply List.map_congr_left
    intro f hf
    rw [hsingle f hf, csvLineEntries_singleton]
  rw [heq] at hentry
  exact index_file_fidelity input bufSize now c decompress (fun l => rowExtractor [l])
    hb hc hterm entry hentry

theorem repack_fidelity (fin : List Nat) (inputDecompress : List Nat → List Nat)
    (chunkSize : Nat) (extractor compress decompressOut : List Nat → List Nat)
    (oc : Compression) (out : List Nat) (entries : List IdxEntry)
    (hrt : ∀ b : List Nat, decompressOut (compress b) = b)
    (hterm : inputDecompress fin = [] ∨ (inputDecompress fin).getLast? = some NL)
    (hok : repack fin inputDecompress chunkSize extractor compress oc = .ok (out, entries)) :
    (∀ entry ∈ entries,
        entryFidelity out decompressOut extractor entry
        ∧ sliceD (decompressOut (sliceD out entry.frameStart entry.frameLen))
            entry.lineStart entry.lineLen ∈ splitLines (inputDecompress fin))
      ∧ ∀ batch ∈ batchIterator chunkSize (splitLines (inputDecompress fin)),
          ∀ startOff : Nat,
            (((repackBatch extractor compress batch startOff).2).map IdxEntry.lineLen).sum
              = (decompressOut ((repackBatch extractor compress batch startOff).1)).length := by
  simp only [repack] at hok
  split_ifs at hok with h1 h2 h3
  have hpair :
      repackFold extractor compress
        (batchIterator chunkSize (splitLines (inputDecompress fin))) 0 = (out, entries) := by
    simpa using hok
  have hout : out
      = ((batchIterator chunkSize (splitLines (inputDecompress fin))).map
          (fun b => compress b.flatten)).flatten := by
    rw [← repackFold_out extractor compress _ 0, hpair]
  constructor
  · intro entry hentry
    have hentry' : entry ∈ (repackFold extractor compress
        (batchIterator chunkSize (splitLines (inputDecompress fin))) 0).2 := by
      rw [hpair]
      exact hentry
    obtain ⟨bpre, batch, bsuf, hbs, pre, line, suf, hbatch, hk, hfs, hfl, hlst, hll⟩ :=
      repackFold_mem extractor compress _ 0 entry hentry'
    have hframe : sliceD out entry.frameStart entry.frameLen = compress batch.flatten := by
      rw [hout, hbs, hfs, hfl]
      simp only [List.map_append, List.map_cons, Nat.zero_add]
      have heq : (bpre.map (fun b => (compress b.flatten).length)).sum
          = ((bpre.map (fun b => compress b.flatten)).map List.length).sum := by
        rw [List.map_map]
        rfl
      rw [heq]
      exact flatten_slice (bpre.map (fun b => compress b.flatten)) (compress batch.flatten)
        (bsuf.map (fun b => compress b.flatten))
    have hD : decompressOut (sliceD out entry.frameStart entry.frameLen) = batch.flatten := by
      rw [hframe, hrt]
    have hrecslice :
        sliceD (decompressOut (sliceD out entry.frameStart entry.frameLen))
          entry.lineStart entry.lineLen = line := by
      rw [hD, hbatch, hlst, hll]
      exact flatten_slice pre line suf
    have hlinemem : line ∈ splitLines (inputDecompress fin) := by
      have hbm : batch ∈ batchIterator chunkSize (splitLines (inputDecompress fin)) := by
        rw [hbs]
        simp
      have hlb : line ∈ batch := by
        rw [hbatch]
        simp
      have hflat : line ∈ (batchIterator chunkSize (splitLines (inputDecompress fin))).flatten :=
        List.mem_join_of_mem hbm hlb
      rwa [batchIterator, batchAux_flatten, List.nil_append] at hflat
    have hrec : isRecordLine line = true := by
      rcases hterm with hnl | hlast'
      · rw [hnl] at hlinemem
        simp [splitLines] at hlinemem
      · exact splitLines_record _ hlast' line hlinemem
    refine ⟨⟨?_, ?_⟩, ?_⟩
    · rw [hrecslice]
      exact hrec
    · rw [hrecslice]
      exact hk.symm
    · rw [hrecslice]
      exact hlinemem
  · intro batch hbatch startOff
    simp only [repackBatch]
    rw [lineEntries_sum, hrt]

/-- C1 counterexample: the claimed fidelity fails for `index_csv_file` on a
    frame whose decompressed content is `b"\"x\ny\"|a\nb|c\n"` (bytes
    `c1CsvFrame`, `\n`-terminated).  `csv.reader` merges the first two
    physical lines into one row because of the quoted newline, and
    `len(csv_in.current_line)` then counts only the second line (lib.py
    357-359), so the indexer emits two entries `(b"x\ny", fs, fl, 0, 5)` and
    `(b"b", fs, fl, 5, 4)`.  The first entry's line range `[0, 5)` selects
    `b"\"x\ny\""` from the decompressed frame, which is not a
    newline-terminated record, so no extractor makes the entry faithful. -/
theorem c1_counterexample :
    index_csv_file [([0], 0, 1)] (fun _ => c1CsvFrame) c1CsvGroups c1CsvKeys
        = [⟨[120, 10, 121], 0, 1, 0, 5⟩, ⟨[98], 0, 1, 5, 4⟩]
      ∧ c1CsvFrame.getLast? = some NL
      ∧ sliceD ((fun _ : List Nat => c1CsvFrame) (sliceD [0] 0 1)) 0 5
          = [34, 120, 10, 121, 34]
      ∧ isRecordLine [34, 120, 10, 121, 34] = false
      ∧ ∀ extractor : List Nat → List Nat,
          ¬ entryFidelity [0] (fun _ => c1CsvFrame) extractor
              ⟨[120, 10, 121], 0, 1, 0, 5⟩ := by
  refine ⟨by decide, by decide, by decide, by decide, ?_⟩
  intro extractor h
  exact absurd h.1 (by decide)

/-- C1 (amended): index fidelity.  For every index entry `(k, fs, fl, ls,
    ll)` emitted over input `O` by `index_json_file`, or by `index_csv_file`
    when every CSV row is contained in a single physical line (no quoted
    field spans lines), or by the repacker (`_repack`) over output `O`,
    decompressing bytes `[fs, fs + fl)` of `O` and taking bytes
    `[ls, ls + ll)` of the result yields exactly one complete
    newline-terminated record whose extracted key equals `k`; for the
    repacker the record equals one of the input's records byte-for-byte, and
    the sum of `line_len` over a batch's entries equals the uncompressed size
    of the batch's frame.  Without the single-line-row restriction the CSV
    part is false: see the counterexample above. -/
theorem c1_index_fidelity :
    (∀ (input : List Nat) (bufSize : Nat) (now : Int) (c : Compression)
        (decompress extractor : List Nat → List Nat),
        0 < bufSize → c ≠ .NONE →
        (∀ f ∈ iterate_archives input bufSize c now,
            decompress f.1 = [] ∨ (decompress f.1).getLast? = some NL) →
        ∀ entry ∈ index_file (iterate_archives input bufSize c now) decompress extractor,
          entryFidelity input decompress extractor entry)
    ∧ (∀ (input : List Nat) (bufSize : Nat) (now : Int) (c : Compression)
        (decompress : List Nat → List Nat)
        (rowGroups : List (List Nat) → List (List (List Nat)))
        (rowExtractor : List (List Nat) → List Nat),
        0 < bufSize → c ≠ .NONE →
        (∀ f ∈ iterate_archives input bufSize c now,
            decompress f.1 = [] ∨ (decompress f.1).getLast? = some NL) →
        (∀ f ∈ iterate_archives input bufSize c now,
            rowGroups (splitLines (decompress f.1))
              = (splitLines (decompress f.1)).map fun l => [l]) →
        ∀ entry ∈ index_csv_file (iterate_archives input bufSize c now) decompress
            rowGroups rowExtractor,
          entryFidelity input decompress (fun l => rowExtractor [l]) entry)
    ∧ (∀ (fin : List Nat) (inputDecompress : List Nat → List Nat) (chunkSize : Nat)
        (extractor compress decompressOut : List Nat → List Nat) (oc : Compression)
        (out : List Nat) (entries : List IdxEntry),
        (∀ b : List Nat, decompressOut (compress b) = b) →
        (inputDecompress fin = [] ∨ (inputDecompress fin).getLast? = some NL) →
        repack fin inputDecompress chunkSize extractor compress oc = .ok (out, entries) →
        (∀ entry ∈ entries,
            entryFidelity out decompressOut extractor entry
            ∧ sliceD (decompressOut (sliceD out entry.frameStart entry.frameLen))
                entry.lineStart entry.lineLen ∈ splitLines (inputDecompress fin))
          ∧ ∀ batch ∈ batchIterator chunkSize (splitLines (inputDecompress fin)),
              ∀ startOff : Nat,
                (((repackBatch extractor compress batch startOff).2).map IdxEntry.lineLen).sum
                  = (decompressOut ((repackBatch extractor compress batch startOff).1)).length) :=
  ⟨fun input bufSize now c dec extr hb hc hterm =>
      index_file_fidelity input bufSize now c dec extr hb hc hterm,
   fun input bufSize now c dec rg re hb hc hterm hsingle =>
      index_csv_file_fidelity input bufSize now c dec rg re hb hc hterm hsingle,
   fun fin idec cs extr comp dout oc out entries hrt hterm hok =>
      repack_fidelity fin idec cs extr comp dout oc out entries hrt hterm hok⟩

/-- C1 witness: the fidelity theorem instantiated on a concrete two-member
    gzip stream (JSON-indexer and CSV-indexer sides, the latter with the
    single-line row grouping) and a concrete one-record input with identity
    codecs (repacker side), discharging every hypothesis on those inputs. -/
theorem c1_index_fidelity_witness :
    (((0 : Nat) < 5
        ∧ Compression.GZIP ≠ Compression.NONE
        ∧ (∀ f ∈ iterate_archives c1wInput 5 .GZIP 1262307600,
              (fun l : List Nat => l) f.1 = []
                ∨ ((fun l : List Nat => l) f.1).getLast? = some NL))
      ∧ ∀ entry ∈ index_file (iterate_archives c1wInput 5 .GZIP 1262307600)
            (fun l : List Nat => l) (fun l : List Nat => l.take 1),
          entryFidelity c1wInput (fun l : List Nat => l) (fun l : List Nat => l.take 1) entry)
    ∧ (((0 : Nat) < 5
        ∧ Compression.GZIP ≠ Compression.NONE
        ∧ (∀ f ∈ iterate_archives c1wInput 5 .GZIP 1262307600,
              (fun l : List Nat => l) f.1 = []
                ∨ ((fun l : List Nat => l) f.1).getLast? = some NL)
        ∧ (∀ f ∈ iterate_archives c1wInput 5 .GZIP 1262307600,
              (fun lines : List (List Nat) => lines.map fun l => [l])
                  (splitLines ((fun l : List Nat => l) f.1))
                = (splitLines ((fun l : List Nat => l) f.1)).map fun l => [l]))
      ∧ ∀ entry ∈ index_csv_file (iterate_archives c1wInput 5 .GZIP 1262307600)
            (fun l : List Nat => l)
            (fun lines : List (List Nat) => lines.map fun l => [l])
            (fun g : List (List Nat) => (g.getLastD []).take 1),
          entryFidelity c1wInput (fun l : List Nat => l)
            (fun l : List Nat =>
              (fun g : List (List Nat) => (g.getLastD []).take 1) [l]) entry)
    ∧ (((∀ b : List Nat, (fun l : List Nat => l) ((fun l : List Nat => l) b) = b)
        ∧ ((fun l : List Nat => l) c1wFin = []
            ∨ ((fun l : List Nat => l) c1wFin).getLast? = some NL)
        ∧ repack c1wFin (fun l : List Nat => l) 1 (fun l : List Nat => l.take 1)
            (fun l : List Nat => l) .GZIP
          = .ok (repackFold (fun l : List Nat => l.take 1) (fun l : List Nat => l)
              (batchIterator 1 (splitLines ((fun l : List Nat => l) c1wFin))) 0))
      ∧ (∀ entry ∈ (repackFold (fun l : List Nat => l.take 1) (fun l : List Nat => l)
              (batchIterator 1 (splitLines ((fun l : List Nat => l) c1wFin))) 0).2,
            entryFidelity (repackFold (fun l : List Nat => l.take 1) (fun l : List Nat => l)
                (batchIterator 1 (splitLines ((fun l : List Nat => l) c1wFin))) 0).1
              (fun l : List Nat => l) (fun l : List Nat => l.take 1) entry
            ∧ sliceD ((fun l : List Nat => l)
                  (sliceD (repackFold (fun l : List Nat => l.take 1) (fun l : List Nat => l)
                      (batchIterator 1 (splitLines ((fun l : List Nat => l) c1wFin))) 0).1
                    entry.frameStart entry.frameLen))
                entry.lineStart entry.lineLen
              ∈ splitLines ((fun l : List Nat => l) c1wFin))
        ∧ ∀ batch ∈ batchIterator 1 (splitLines ((fun l : List Nat => l) c1wFin)),
            ∀ startOff : Nat,
              (((repackBatch (fun l : List Nat => l.take 1) (fun l : List Nat => l)
                    batch startOff).2).map IdxEntry.lineLen).sum
                = ((fun l : List Nat => l) ((repackBatch (fun l : List Nat => l.take 1)
                    (fun l : List Nat => l) batch startOff).1)).length) := by
  refine ⟨⟨⟨by decide, by decide, by decide⟩, ?_⟩,
    ⟨⟨by decide, by decide, by decide, fun f _ => rfl⟩, ?_⟩,
    ⟨⟨fun b => rfl, by decide, rfl⟩, ?_⟩⟩
  · exact c1_index_fidelity.1 c1wInput 5 1262307600 .GZIP (fun l => l) (fun l => l.take 1)
      (by decide) (by decide) (by decide)
  · exact c1_index_fidelity.2.1 c1wInput 5 1262307600 .GZIP (fun l => l)
      (fun lines => lines.map fun l => [l]) (fun g => (g.getLastD []).take 1)
      (by decide) (by decide) (by decide) (fun f _ => rfl)
  · exact c1_index_fidelity.2.2 c1wFin (fun l => l) 1 (fun l => l.take 1) (fun l => l)
      (fun l => l) .GZIP
      (repackFold (fun l : List Nat => l.take 1) (fun l : List Nat => l)
        (batchIterator 1 (splitLines ((fun l : List Nat => l) c1wFin))) 0).1
      (repackFold (fun l : List Nat => l.take 1) (fun l : List Nat => l)
        (batchIterator 1 (splitLines ((fun l : List Nat => l) c1wFin))) 0).2
      (fun b => rfl) (by decide) rfl

/-- C3: binary search raises `KeyError` for a key that is present.  The
    concrete index `b"a|1\nz|2\n"` is sorted ascending by key in
    byte-lexicographic order and contains an entry with key `b"a"`, yet
    `_binary_search(b"a", fin, 8)` raises `KeyError`: the first probe
    (pivot 4) lands on the last line `b"z|2\n"`, whose read ends at EOF, and
    the reached-EOF branch fires before the range is ever narrowed towards
    the first line.  The claim requires the four fields `[b"1"]` instead. -/
theorem c3_binary_search_bug :
    binary_search [97] [97, 124, 49, 10, 122, 124, 50, 10] 8 1024 50
        = .keyNotFound [97]
      ∧ (splitLines [97, 124, 49, 10, 122, 124, 50, 10]).map
          (fun l => (splitOnceAt PIPE l).map Prod.fst)
        = [some [97], some [122]]
      ∧ lexLt [97] [122] = true := by
  decide

/-- C4: the zero-record repack path never writes the promised empty frame.
    On an entirely empty input stream (`RepackEmptyTest` starts with
    `io.BytesIO()`), `_determine_compression_from_header` returns `None` and
    the `assert compression in SUPPORTED_COMPRESSIONS` fails before anything
    is written; on a compressed stream with zero records the empty-input
    branch rebinds `fout` to a fresh `BytesIO` (so the real data sink gets
    nothing), writes an empty zstd frame there regardless of the requested
    output compression, and raises `AttributeError` on
    `zstandard.open(fout, mode='wb').write(b'').close()`.  Either way, no
    empty frame of the requested compression reaches the data sink. -/
theorem c4_empty_repack_bug :
    repack [] (fun l => l) 1000 (fun l => l.take 1) (fun l => l) .GZIP
        = .error .assertionError
      ∧ repack [0x1f, 0x8b, 0x08] (fun _ => []) 1000 (fun l => l.take 1) (fun l => l) .GZIP
        = .error .attributeError :=
  ⟨rfl, rfl⟩

theorem bsStep_repeat_panic (key : List Nat) (fsize bufferBytes : Nat) (st : BSState)
    (hmem : (st.start, st.pivot, st.endPos) ∈ st.seen) :
    bsStep key fsize bufferBytes st = .inl .panic := by
  simp [bsStep, hmem]

theorem bsStep_inr_seen (key : List Nat) (fsize bufferBytes : Nat) (st st' : BSState)
    (h : bsStep key fsize bufferBytes st = .inr st') :
    st'.seen = st.seen ++ [(st.start, st.pivot, st.endPos)] := by
  simp only [bsStep] at h
  split at h
  · simp at h
  · split at h
    · simp at h
    · split_ifs at h
      all_goals
        first
        | (split at h <;> first | (cases h; rfl) | simp at h)
        | (cases h; rfl)
        | simp at h

theorem bsStep_inl_no_fuel (key : List Nat) (fsize bufferBytes : Nat) (st : BSState)
    (r : BSResult) (h : bsStep key fsize bufferBytes st = .inl r) :
    ∀ s : BSState, r ≠ .outOfFuel s := by
  simp only [bsStep] at h
  split at h
  · cases h
    simp
  · split at h
    · cases h
      simp
    · split_ifs at h
      all_goals
        first
        | (split at h <;> first | (cases h; simp) | simp at h)
        | (cases h; simp)
        | simp at h

theorem bsLoop_out_of_fuel_growth (key : List Nat) (fsize bufferBytes : Nat) :
    ∀ (fuel : Nat) (st st' : BSState),
      bsLoop key fsize bufferBytes fuel st = .outOfFuel st' →
      st'.seen.length = st.seen.length + fuel := by
  intro fuel
  induction fuel with
  | zero =>
    intro st st' h
    simp only [bsLoop] at h
    cases h
    simp
  | succ fuel ih =>
    intro st st' h
    simp only [bsLoop] at h
    cases hstep : bsStep key fsize bufferBytes st with
    | inl r =>
      rw [hstep] at h
      exact absurd h (bsStep_inl_no_fuel key fsize bufferBytes st r hstep st')
    | inr st2 =>
      rw [hstep] at h
      have hlen := ih st2 st' h
      rw [bsStep_inr_seen key fsize bufferBytes st st2 hstep] at hlen
      simp only [List.length_append, List.length_singleton] at hlen
      omega

/-- C6 counterexample: the index `b"a|1\nb|2\nc|3\nd|4\n"` is sorted
    ascending by key in byte-lexicographic order, yet `_binary_search` for
    the absent key `b"bb"` trips the `'stuck in an infinite loop'` assertion
    (the triple `(7, 7, 8)` repeats) instead of terminating with
    `KeyNotFound`: the assertion failure is not confined to unsorted
    indexes. -/
theorem c6_counterexample :
    isSortedAsc (keysOfIndex c6Index) = true
      ∧ binary_search [98, 98] c6Index 16 1024 20 = .panic := by
  decide

/-- C6 amended: the visited-set check governs termination on sorted and
    unsorted indexes alike.  (1) On the sorted index
    `b"a|1\nb|2\nc|3\nd|4\n"` the query `b"bb"` makes the assertion fail, so
    O(log fsize) normal termination on sorted indexes does not hold as
    stated; (2) whenever an iteration's `(start, pivot, end)` triple is
    already in the visited set, the loop asserts (panics) immediately rather
    than continuing; and (3) every iteration that does not exit the loop
    appends one fresh triple to the visited set, so a run that executes
    `fuel` iterations has recorded `fuel` visited triples — the loop can
    never run forever revisiting states. -/
theorem c6_amended :
    (isSortedAsc (keysOfIndex c6Index) = true
      ∧ binary_search [98, 98] c6Index 16 1024 20 = .panic)
    ∧ (∀ (key : List Nat) (fsize bufferBytes fuel : Nat) (st : BSState),
        (st.start, st.pivot, st.endPos) ∈ st.seen →
        bsLoop key fsize bufferBytes (fuel + 1) st = .panic)
    ∧ (∀ (key : List Nat) (fsize bufferBytes fuel : Nat) (st st' : BSState),
        bsLoop key fsize bufferBytes fuel st = .outOfFuel st' →
        st'.seen.length = st.seen.length + fuel) := by
  refine ⟨by decide, ?_, ?_⟩
  · intro key fsize bufferBytes fuel st hmem
    simp only [bsLoop, bsStep_repeat_panic key fsize bufferBytes st hmem]
  · intro key fsize bufferBytes fuel st st' h
    exact bsLoop_out_of_fuel_growth key fsize bufferBytes fuel st st' h

/-- C6 witness: the amended theorem applied at concrete inputs — a state
    whose triple is already visited panics at once, and a one-iteration
    fuel-exhausted run from the initial state on the counterexample index has
    grown the visited set by exactly one triple. -/
theorem c6_amended_witness :
    ((⟨c6Index, 0, 8, 16, true, [(0, 8, 16)]⟩ : BSState).start,
        (⟨c6Index, 0, 8, 16, true, [(0, 8, 16)]⟩ : BSState).pivot,
        (⟨c6Index, 0, 8, 16, true, [(0, 8, 16)]⟩ : BSState).endPos)
      ∈ (⟨c6Index, 0, 8, 16, true, [(0, 8, 16)]⟩ : BSState).seen
    ∧ bsLoop [98, 98] 16 (1024 * 1024) 1 ⟨c6Index, 0, 8, 16, true, [(0, 8, 16)]⟩ = .panic
    ∧ bsLoop [98, 98] 16 (1024 * 1024) 1 ⟨c6Index, 0, 8, 16, true, []⟩
        = .outOfFuel ⟨c6Index, 0, 4, 8, true, [(0, 8, 16)]⟩
    ∧ (⟨c6Index, 0, 4, 8, true, [(0, 8, 16)]⟩ : BSState).seen.length
        = (⟨c6Index, 0, 8, 16, true, []⟩ : BSState).seen.length + 1 :=
  ⟨by decide,
   c6_amended.2.1 [98, 98] 16 (1024 * 1024) 0 ⟨c6Index, 0, 8, 16, true, [(0, 8, 16)]⟩
     (by decide),
   by decide,
   c6_amended.2.2 [98, 98] 16 (1024 * 1024) 1 ⟨c6Index, 0, 8, 16, true, []⟩
     ⟨c6Index, 0, 4, 8, true, [(0, 8, 16)]⟩ (by decide)⟩

theorem lastIdxOf_spec {b : Nat} {l : List Nat} {i : Nat} (h : lastIdxOf b l = some i) :
    i < l.length ∧ l.getD i 0 = b := by
  unfold lastIdxOf at h
  have hx : i ∈ ((List.range l.length).filter (fun j => l.getD j 0 = b)).getLast? :=
    Option.mem_def.mpr h
  obtain ⟨hne, heq⟩ := List.mem_getLast?_eq_getLast hx
  have hmem : i ∈ (List.range l.length).filter (fun j => l.getD j 0 = b) :=
    heq ▸ List.getLast_mem hne
  obtain ⟨h1, h2⟩ := List.mem_filter.mp hmem
  exact ⟨List.mem_range.mp h1, by simpa using h2⟩

theorem start_of_line_le (content : List Nat) (pos : Nat) :
    start_of_line content pos ≤ pos := by
  unfold start_of_line
  cases h : lastIdxOf NL (content.take pos) with
  | none => simp [h]
  | some i =>
    simp only [h]
    obtain ⟨hlt, _⟩ := lastIdxOf_spec h
    simp only [List.length_take, lt_min_iff] at hlt
    omega

theorem start_of_line_line_start (content : List Nat) (pos : Nat) :
    start_of_line content pos = 0
      ∨ content.getD (start_of_line content pos - 1) 0 = NL := by
  unfold start_of_line
  cases h : lastIdxOf NL (content.take pos) with
  | none =>
    left
    simp [h]
  | some i =>
    right
    simp only [h]
    obtain ⟨hlt, hget⟩ := lastIdxOf_spec h
    simp only [List.length_take, lt_min_iff] at hlt
    have hcd : content.getD i 0 = NL := by
      rw [List.getD_eq_getElem?_getD] at hget ⊢
      rwa [List.getElem?_take, if_pos hlt.1] at hget
    simpa using hcd

theorem readlineFrom_whole (content : List Nat) (pos : Nat) (hpos : pos ≤ content.length) :
    ∃ k : Nat, (readlineFrom content pos).1 = (content.drop pos).take k
      ∧ ((readlineFrom content pos).1.getLast? = some NL
          ∨ pos + (readlineFrom content pos).1.length = content.length) := by
  unfold readlineFrom
  cases h : (content.drop pos).findIdx? (fun x => x = NL) with
  | none =>
    simp only [h]
    refine ⟨(content.drop pos).length, by simp, Or.inr ?_⟩
    simp only [List.length_drop]
    omega
  | some i =>
    simp only [h]
    obtain ⟨hilt, hidx⟩ := List.findIdx?_eq_some_iff_findIdx_eq.mp h
    refine ⟨i + 1, rfl, Or.inl ?_⟩
    have hp : (content.drop pos)[i] = NL := by
      have hw : List.findIdx (fun x => decide (x = NL)) (content.drop pos)
          < (content.drop pos).length := hidx ▸ hilt
      have := @List.findIdx_getElem Nat (fun x => decide (x = NL)) (content.drop pos) hw
      simp only [decide_eq_true_eq] at this
      simp only [hidx] at this
      exact this
    have hlen : ((content.drop pos).take (i + 1)).length = i + 1 := by
      simp only [List.length_take, min_eq_left_iff]
      omega
    rw [List.getLast?_eq_getElem?, hlen]
    simp only [Nat.add_sub_cancel]
    rw [List.getElem?_take, if_pos (Nat.lt_succ_self i), List.getElem?_eq_getElem hilt, hp]

theorem buffer_chunk_whole_lines (content : List Nat) (start endPos pivot : Nat)
    (h1 : start < endPos) (h2 : endPos ≤ content.length) :
    ∃ B : List Nat,
      buffer_chunk content start endPos pivot
          = some (B, 0, B.length, pivot + (start - start_of_line content start) - start)
        ∧ B = sliceD content (start_of_line content start) B.length
        ∧ (start_of_line content start = 0
            ∨ content.getD (start_of_line content start - 1) 0 = NL)
        ∧ (B.getLast? = some NL
            ∨ start_of_line content start + B.length = content.length) := by
  have hale : start_of_line content start ≤ start := start_of_line_le content start
  have hls : start_of_line content start = 0
      ∨ content.getD (start_of_line content start - 1) 0 = NL :=
    start_of_line_line_start content start
  simp only [buffer_chunk]
  have hsize : (endPos - start) + (start - start_of_line content start)
      = endPos - start_of_line content start := by
    omega
  have hbuflen :
      ((content.drop (start_of_line content start)).take
          ((endPos - start) + (start - start_of_line content start))).length
        = endPos - start_of_line content start := by
    simp only [List.length_take, List.length_drop]
    omega
  have hbufne :
      ¬ ((content.drop (start_of_line content start)).take
          ((endPos - start) + (start - start_of_line content start))).isEmpty = true := by
    rw [List.isEmpty_iff]
    intro hnil
    have := congrArg List.length hnil
    rw [hbuflen] at this
    simp at this
    omega
  rw [if_neg hbufne]
  by_cases hlast :
      ((content.drop (start_of_line content start)).take
          ((endPos - start) + (start - start_of_line content start))).getLast? = some NL
  · rw [if_pos hlast]
    refine ⟨_, rfl, ?_, hls, Or.inl hlast⟩
    rw [hbuflen, sliceD, hsize]
  · rw [if_neg hlast]
    have hpos_eq : start_of_line content start + ((content.drop (start_of_line content start)).take
        ((endPos - start) + (start - start_of_line content start))).length = endPos := by
      rw [hbuflen]
      omega
    obtain ⟨k, hrl, hrlend⟩ := readlineFrom_whole content
      (start_of_line content start + ((content.drop (start_of_line content start)).take
        ((endPos - start) + (start - start_of_line content start))).length)
      (by rw [hpos_eq]; exact h2)
    refine ⟨_, rfl, ?_, hls, ?_⟩
    · -- the extended buffer is the contiguous slice of `content` of its length
      rw [hrl, hpos_eq]
      have hdrop : content.drop endPos
          = (content.drop (start_of_line content start)).drop
              (endPos - start_of_line content start) := by
        rw [List.drop_drop]
        congr 1
        omega
      rw [hdrop]
      have hbufeq : (content.drop (start_of_line content start)).take
            ((endPos - start) + (start - start_of_line content start))
          = (content.drop (start_of_line content start)).take
              (endPos - start_of_line content start) := by
        rw [hsize]
      rw [hbufeq, ← List.take_add]
      rw [sliceD]
      rw [List.take_eq_take]
      simp only [List.length_append, List.length_take, List.length_drop]
      omega
    · rcases hrlend with hnl | heof
      · left
        rw [List.getLast?_append_of_ne_nil]
        · exact hnl
        · intro hnil
          rw [hnil] at hnl
          simp at hnl
      · right
        rw [List.length_append, ← Nat.add_assoc, hpos_eq]
        rw [hpos_eq] at heof
        exact heof

/-- C7: buffer-chunk translation.  Over the four-line stream of
    `BufferChunkTest` (line lengths 19, 20, 20, 20), the request
    `(start=25, end=50, pivot=22)` buffers exactly the middle two whole lines
    with translated coordinates `(0, 40, 3)`, and the request
    `(start=19, end=39, pivot=38)` buffers exactly the second line with
    coordinates `(0, 20, 19)`.  In general (for any in-range request) the
    buffered bytes are a contiguous slice of the stream extended left to the
    start of the first line and right to the end of the last line: the slice
    starts at offset 0 or one past a newline, and ends with a newline or at
    end of file, with coordinates translated by
    `pivot - start + left_shift`. -/
theorem c7_buffer_chunk :
    buffer_chunk c7Stream 25 50 22 = some (c7l2 ++ c7l3, 0, 40, 3)
      ∧ buffer_chunk c7Stream 19 39 38 = some (c7l2, 0, 20, 19)
      ∧ ∀ (content : List Nat) (start endPos pivot : Nat),
          start < endPos → endPos ≤ content.length →
          ∃ B : List Nat,
            buffer_chunk content start endPos pivot
                = some (B, 0, B.length,
                    pivot + (start - start_of_line content start) - start)
              ∧ B = sliceD content (start_of_line content start) B.length
              ∧ (start_of_line content start = 0
                  ∨ content.getD (start_of_line content start - 1) 0 = NL)
              ∧ (B.getLast? = some NL
                  ∨ start_of_line content start + B.length = content.length) :=
  ⟨by decide, by decide,
   fun content start endPos pivot h1 h2 =>
     buffer_chunk_whole_lines content start endPos pivot h1 h2⟩

/-- C7 witness: the general whole-lines property instantiated at the first
    concrete request of `BufferChunkTest`. -/
theorem c7_buffer_chunk_witness :
    25 < 50 ∧ 50 ≤ c7Stream.length
      ∧ ∃ B : List Nat,
          buffer_chunk c7Stream 25 50 22
              = some (B, 0, B.length, 22 + (25 - start_of_line c7Stream 25) - 25)
            ∧ B = sliceD c7Stream (start_of_line c7Stream 25) B.length
            ∧ (start_of_line c7Stream 25 = 0
                ∨ c7Stream.getD (start_of_line c7Stream 25 - 1) 0 = NL)
            ∧ (B.getLast? = some NL
                ∨ start_of_line c7Stream 25 + B.length = c7Stream.length) :=
  ⟨by decide, by decide, c7_buffer_chunk.2.2 c7Stream 25 50 22 (by decide) (by decide)⟩

/-- C8 counterexample: when the sort pipeline fails, `sort_file` does not
    leave the temporary file in place — the `finally: os.remove(tmp_path)`
    deletes it — and the original path already holds the pipeline's partial
    output (the shell redirect truncates it before success is known), so the
    original is not "replaced only on success". -/
theorem c8_counterexample :
    (sort_file ⟨some [51, 49, 50], none⟩ (fun l => l) [] false).1.tmp = none
      ∧ (sort_file ⟨some [51, 49, 50], none⟩ (fun l => l) [] false).1.orig = some []
      ∧ (sort_file ⟨some [51, 49, 50], none⟩ (fun l => l) [] false).2 = false := by
  decide

/-- C8 amended: `sort_file` moves the original aside before the pipeline
    runs and removes the temporary in a `finally` block, so the temporary is
    deleted whether the pipeline succeeds or fails; on success the original
    path holds the sorted result, on failure it holds whatever partial output
    the redirect flushed, and the failure propagates after the cleanup. -/
theorem c8_amended :
    ∀ (orig : List Nat) (tmp0 : Option (List Nat)) (pipe : List Nat → List Nat)
      (partialOut : List Nat),
      ((sort_file ⟨some orig, tmp0⟩ pipe partialOut true).1.tmp = none
        ∧ (sort_file ⟨some orig, tmp0⟩ pipe partialOut true).1.orig = some (pipe orig)
        ∧ (sort_file ⟨some orig, tmp0⟩ pipe partialOut true).2 = true)
      ∧ ((sort_file ⟨some orig, tmp0⟩ pipe partialOut false).1.tmp = none
        ∧ (sort_file ⟨some orig, tmp0⟩ pipe partialOut false).1.orig = some partialOut
        ∧ (sort_file ⟨some orig, tmp0⟩ pipe partialOut false).2 = false) :=
  fun _ _ _ _ => ⟨⟨rfl, rfl, rfl⟩, ⟨rfl, rfl, rfl⟩⟩

theorem retrieveRows_out (decChunk : List Nat) :
    ∀ (rows : List IdxEntry) (displayed : List (List Nat)),
      (retrieveRows decChunk rows displayed).1
        = (rows.map (fun r => sliceD decChunk r.lineStart r.lineLen)).flatten := by
  intro rows
  induction rows with
  | nil => intro d; rfl
  | cons r rest ih =>
    intro d
    simp [retrieveRows, sliceD, ih]

theorem retrieveRows_dup (decChunk : List Nat) :
    ∀ (rows : List IdxEntry) (displayed : List (List Nat)),
      (retrieveRows decChunk rows displayed).2.1 = dupScan rows displayed := by
  intro rows
  induction rows with
  | nil => intro d; rfl
  | cons r rest ih =>
    intro d
    simp [retrieveRows, dupScan, ih]

theorem retrieveRows_displayed (decChunk : List Nat) :
    ∀ (rows : List IdxEntry) (displayed : List (List Nat)),
      (retrieveRows decChunk rows displayed).2.2 = displayed ++ rows.map IdxEntry.key := by
  intro rows
  induction rows with
  | nil =>
    intro d
    simp [retrieveRows]
  | cons r rest ih =>
    intro d
    simp [retrieveRows, ih]

theorem dupScan_append :
    ∀ (rows1 rows2 : List IdxEntry) (displayed : List (List Nat)),
      dupScan (rows1 ++ rows2) displayed
        = dupScan rows1 displayed ++ dupScan rows2 (displayed ++ rows1.map IdxEntry.key) := by
  intro rows1
  induction rows1 with
  | nil => intro rows2 d; simp [dupScan]
  | cons r rest ih =>
    intro rows2 d
    simp [dupScan, ih, List.append_assoc]

theorem retrieveGroups_dup (file : List Nat) (dec : List Nat → List Nat) :
    ∀ (groups : List (Nat × List IdxEntry)) (displayed : List (List Nat)),
      (retrieveGroups file dec groups displayed).2
        = dupScan ((groups.map Prod.snd).flatten) displayed := by
  intro groups
  induction groups with
  | nil => intro d; rfl
  | cons g rest ih =>
    intro d
    obtain ⟨off, rows⟩ := g
    cases rows with
    | nil => simpa [retrieveGroups] using ih d
    | cons r0 rrest =>
      simp only [retrieveGroups, List.map_cons, List.flatten_cons]
      rw [ih, retrieveRows_dup, retrieveRows_displayed, dupScan_append]

theorem dupScan_mem_of_displayed :
    ∀ (rows : List IdxEntry) (displayed : List (List Nat)) (k : List Nat),
      k ∈ displayed → k ∈ rows.map IdxEntry.key → k ∈ dupScan rows displayed := by
  intro rows
  induction rows with
  | nil => simp
  | cons r rest ih =>
    intro d k hd hm
    simp only [dupScan, List.mem_append]
    rcases List.mem_cons.mp hm with hk | hm'
    · left
      subst hk
      simp [hd]
    · right
      exact ih (d ++ [r.key]) k (List.mem_append_left _ hd) hm'

theorem dupScan_mem_of_two :
    ∀ (rows : List IdxEntry) (displayed : List (List Nat)) (k : List Nat),
      2 ≤ (rows.map IdxEntry.key).count k → k ∈ dupScan rows displayed := by
  intro rows
  induction rows with
  | nil => simp
  | cons r rest ih =>
    intro d k h2
    simp only [dupScan, List.mem_append]
    by_cases hk : r.key = k
    · right
      have h1 : 1 ≤ (rest.map IdxEntry.key).count k := by
        rw [List.map_cons, hk, List.count_cons_self] at h2
        omega
      exact dupScan_mem_of_displayed rest (d ++ [r.key]) k
        (by rw [hk]; exact List.mem_append_right _ (List.mem_singleton_self k))
        (List.count_pos_iff_mem.mp h1)
    · right
      apply ih
      have hne : k ≠ r.key := fun hkk => hk hkk.symm
      rwa [List.map_cons, List.count_cons_of_ne hne] at h2

theorem addToGroup_perm (acc : List (Nat × List IdxEntry)) (row : IdxEntry) :
    ((addToGroup acc row).map Prod.snd).flatten.Perm
      ((acc.map Prod.snd).flatten ++ [row]) := by
  induction acc with
  | nil => simp [addToGroup]
  | cons g rest ih =>
    obtain ⟨off, rows⟩ := g
    simp only [addToGroup]
    split_ifs with hoff
    · simp only [List.map_cons, List.flatten_cons]
      rw [List.append_assoc, List.append_assoc]
      exact List.Perm.append_left rows (List.perm_append_singleton row _).symm
    · simp only [List.map_cons, List.flatten_cons]
      rw [List.append_assoc]
      exact List.Perm.append_left rows ih

theorem scan_groups_perm (keys : List (List Nat)) :
    ∀ (rows : List IdxEntry) (acc : List (Nat × List IdxEntry)),
      ((rows.foldl (fun acc row => if row.key ∈ keys then addToGroup acc row else acc)
          acc).map Prod.snd).flatten.Perm
        ((acc.map Prod.snd).flatten ++ rows.filter (fun r => r.key ∈ keys)) := by
  intro rows
  induction rows with
  | nil =>
    intro acc
    simp
  | cons r rest ih =>
    intro acc
    simp only [List.foldl_cons]
    by_cases hr : r.key ∈ keys
    · rw [if_pos hr]
      have hfc : (r :: rest).filter (fun x => x.key ∈ keys)
          = r :: rest.filter (fun x => x.key ∈ keys) := by
        simp [hr]
      rw [hfc]
      have h3 := (ih (addToGroup acc r)).trans
        (List.Perm.append_right (rest.filter (fun x => x.key ∈ keys)) (addToGroup_perm acc r))
      rw [List.append_assoc] at h3
      simpa using h3
    · rw [if_neg hr]
      have hfc : (r :: rest).filter (fun x => x.key ∈ keys)
          = rest.filter (fun x => x.key ∈ keys) := by
        simp [hr]
      rw [hfc]
      exact ih acc

theorem count_filter_key (keys : List (List Nat)) (k : List Nat) (hk : k ∈ keys) :
    ∀ rows : List IdxEntry,
      (rows.filter (fun r => r.key = k)).length
        ≤ ((rows.filter (fun r => r.key ∈ keys)).map IdxEntry.key).count k := by
  intro rows
  induction rows with
  | nil => simp
  | cons r rest ih =>
    by_cases h1 : r.key = k
    · have h2 : r.key ∈ keys := h1 ▸ hk
      have e1 : (r :: rest).filter (fun x => x.key = k)
          = r :: rest.filter (fun x => x.key = k) := by
        simp [h1]
      have e2 : (r :: rest).filter (fun x => x.key ∈ keys)
          = r :: rest.filter (fun x => x.key ∈ keys) := by
        simp [h2]
      rw [e1, e2, List.length_cons, List.map_cons, h1, List.count_cons_self]
      omega
    · by_cases h2 : r.key ∈ keys
      · have e1 : (r :: rest).filter (fun x => x.key = k)
            = rest.filter (fun x => x.key = k) := by
          simp [h1]
        have e2 : (r :: rest).filter (fun x => x.key ∈ keys)
            = r :: rest.filter (fun x => x.key ∈ keys) := by
          simp [h2]
        have hne : k ≠ r.key := fun hkk => h1 hkk.symm
        rw [e1, e2, List.map_cons, List.count_cons_of_ne hne]
        exact ih
      · have e1 : (r :: rest).filter (fun x => x.key = k)
            = rest.filter (fun x => x.key = k) := by
          simp [h1]
        have e2 : (r :: rest).filter (fun x => x.key ∈ keys)
            = rest.filter (fun x => x.key ∈ keys) := by
          simp [h2]
        rw [e1, e2]
        exact ih

theorem scan_fold_ext (k0 : List Nat) (keys : List (List Nat)) :
    ∀ (rows : List IdxEntry), (∀ r ∈ rows, r.key ≠ k0) →
      ∀ acc : List (Nat × List IdxEntry),
        rows.foldl (fun acc row => if row.key ∈ k0 :: keys then addToGroup acc row else acc) acc
          = rows.foldl (fun acc row => if row.key ∈ keys then addToGroup acc row else acc) acc := by
  intro rows
  induction rows with
  | nil =>
    intro _ acc
    rfl
  | cons r rest ih =>
    intro hno acc
    simp only [List.foldl_cons]
    have hr0 : r.key ≠ k0 := hno r (List.mem_cons_self r rest)
    have hrest : ∀ x ∈ rest, x.key ≠ k0 := fun x hx => hno x (List.mem_cons_of_mem r hx)
    by_cases hr : r.key ∈ keys
    · rw [if_pos hr, if_pos (List.mem_cons_of_mem k0 hr)]
      exact ih hrest _
    · rw [if_neg hr, if_neg (by simp [List.mem_cons, hr0, hr])]
      exact ih hrest _

/-- C9: retrieve error tolerance.  (1) A batch key matching no index entry is
    logged among the missing keys of the index scan but does not change the
    bytes written for the other keys; (2) the scan groups every matching
    index row exactly once (the grouped rows are a permutation of the rows
    whose key is in the batch), so no match is dropped; (3) within a group
    every row's record is written, duplicates included (the `displayed`
    check only logs); (4) a key with two or more matching entries in the
    batch is logged as a multiple-matches error — and by (2) and (3) all its
    records are still written — without aborting (the model is total). -/
theorem c9_retrieve_tolerance :
    (∀ (file : List Nat) (dec : List Nat → List Nat) (k0 : List Nat)
        (keys : List (List Nat)) (rows : List IdxEntry),
        (∀ r ∈ rows, r.key ≠ k0) →
        (retrieve_batch file dec (k0 :: keys) rows).1 = (retrieve_batch file dec keys rows).1
          ∧ k0 ∈ (retrieve_batch file dec (k0 :: keys) rows).2.2)
    ∧ (∀ (keys : List (List Nat)) (rows : List IdxEntry),
        (((scan_index keys rows).1.map Prod.snd).flatten).Perm
          (rows.filter (fun r => r.key ∈ keys)))
    ∧ (∀ (decChunk : List Nat) (rows : List IdxEntry) (displayed : List (List Nat)),
        (retrieveRows decChunk rows displayed).1
          = (rows.map (fun r => sliceD decChunk r.lineStart r.lineLen)).flatten)
    ∧ (∀ (file : List Nat) (dec : List Nat → List Nat) (keys : List (List Nat))
        (rows : List IdxEntry) (k : List Nat),
        k ∈ keys → 2 ≤ (rows.filter (fun r => r.key = k)).length →
        k ∈ (retrieve_batch file dec keys rows).2.1) := by
  refine ⟨?_, ?_, ?_, ?_⟩
  · intro file dec k0 keys rows hno
    constructor
    · simp only [retrieve_batch, scan_index]
      rw [scan_fold_ext k0 keys rows hno []]
    · simp only [retrieve_batch, scan_index]
      apply List.mem_filter.mpr
      refine ⟨List.mem_cons_self _ _, ?_⟩
      simp only [decide_eq_true_eq, List.all_eq_true]
      intro r hr
      simpa using hno r hr
  · intro keys rows
    have h := scan_groups_perm keys rows []
    simpa [scan_index] using h
  · intro decChunk rows displayed
    exact retrieveRows_out decChunk rows displayed
  · intro file dec keys rows k hk h2
    simp only [retrieve_batch, scan_index]
    rw [retrieveGroups_dup]
    apply dupScan_mem_of_two
    have hperm := scan_groups_perm keys rows []
    simp only [List.map_nil, List.flatten_nil, List.nil_append] at hperm
    have hmap := hperm.map IdxEntry.key
    rw [List.count_eq_countP, List.Perm.countP_eq _ hmap, ← List.count_eq_countP]
    calc (2 : Nat) ≤ (rows.filter (fun r => r.key = k)).length := h2
      _ ≤ ((rows.filter (fun r => r.key ∈ keys)).map IdxEntry.key).count k :=
          count_filter_key keys k hk rows

/-- C9 witness: the tolerance theorem applied to a concrete batch — a key
    with no matching row leaves the written bytes unchanged and is logged
    missing, and a key with two matching rows is logged as a duplicate. -/
theorem c9_retrieve_tolerance_witness :
    ((∀ r ∈ ([⟨[97], 0, 2, 0, 2⟩] : List IdxEntry), r.key ≠ [98])
      ∧ ((retrieve_batch [1, 2] (fun l => l) ([98] :: [[97]]) [⟨[97], 0, 2, 0, 2⟩]).1
            = (retrieve_batch [1, 2] (fun l => l) [[97]] [⟨[97], 0, 2, 0, 2⟩]).1
          ∧ [98] ∈ (retrieve_batch [1, 2] (fun l => l) ([98] :: [[97]]) [⟨[97], 0, 2, 0, 2⟩]).2.2))
    ∧ ([97] ∈ [[97]]
        ∧ 2 ≤ (([⟨[97], 0, 2, 0, 2⟩, ⟨[97], 0, 2, 0, 2⟩] : List IdxEntry).filter
            (fun r => r.key = [97])).length
        ∧ [97] ∈ (retrieve_batch [1, 2] (fun l => l) [[97]]
            [⟨[97], 0, 2, 0, 2⟩, ⟨[97], 0, 2, 0, 2⟩]).2.1) :=
  ⟨⟨by decide,
    c9_retrieve_tolerance.1 [1, 2] (fun l => l) [98] [[97]] [⟨[97], 0, 2, 0, 2⟩] (by decide)⟩,
   ⟨by decide, by decide,
    c9_retrieve_tolerance.2.2.2 [1, 2] (fun l => l) [[97]]
      [⟨[97], 0, 2, 0, 2⟩, ⟨[97], 0, 2, 0, 2⟩] [97] (by decide) (by decide)⟩⟩

theorem stripBytes_pad (ws1 ws2 k : List Nat)
    (h1 : ∀ b ∈ ws1, isSpaceByte b = true) (h2 : ∀ b ∈ ws2, isSpaceByte b = true) :
    stripBytes (ws1 ++ k ++ ws2) = stripBytes k := by
  unfold stripBytes
  have e1 : ws1.dropWhile isSpaceByte = [] := List.dropWhile_eq_nil_iff.mpr h1
  have hd1 : (ws1 ++ (k ++ ws2)).dropWhile isSpaceByte
      = (k ++ ws2).dropWhile isSpaceByte := by
    rw [List.dropWhile_append, e1]
    simp
  rw [List.append_assoc, hd1]
  by_cases hk : k.dropWhile isSpaceByte = []
  · have e2 : (k ++ ws2).dropWhile isSpaceByte = [] := by
      rw [List.dropWhile_append, hk]
      simp [List.dropWhile_eq_nil_iff.mpr h2]
    rw [e2, hk]
  · have e2 : (k ++ ws2).dropWhile isSpaceByte = k.dropWhile isSpaceByte ++ ws2 := by
      rw [List.dropWhile_append, if_neg]
      simp only [List.isEmpty_iff]
      exact hk
    rw [e2, List.reverse_append]
    have e3 : ws2.reverse.dropWhile isSpaceByte = [] :=
      List.dropWhile_eq_nil_iff.mpr (fun b hb => h2 b (List.mem_reverse.mp hb))
    rw [List.dropWhile_append, e3]
    simp

/-- C10: key normalization in `retrieve`.  Every key line read from the keys
    stream is stripped of all leading and trailing ASCII whitespace
    (including the trailing newline and any carriage return) before being
    matched against index keys, so a keys-stream line consisting of a key
    surrounded by whitespace selects exactly the same records — and produces
    the same logs — as the bare key line. -/
theorem c10_key_normalization :
    (∀ (ws1 ws2 k : List Nat),
        (∀ b ∈ ws1, isSpaceByte b = true) → (∀ b ∈ ws2, isSpaceByte b = true) →
        stripBytes (ws1 ++ k ++ ws2) = stripBytes k)
    ∧ (∀ (ws1 ws2 k : List Nat) (restLines : List (List Nat)) (file : List Nat)
        (dec : List Nat → List Nat) (rows : List IdxEntry),
        (∀ b ∈ ws1, isSpaceByte b = true) → (∀ b ∈ ws2, isSpaceByte b = true) →
        retrieve ((ws1 ++ k ++ ws2) :: restLines) file dec rows
          = retrieve (k :: restLines) file dec rows) := by
  constructor
  · exact stripBytes_pad
  · intro ws1 ws2 k restLines file dec rows h1 h2
    simp only [retrieve, batchIteratorDecoded, List.map_cons]
    rw [stripBytes_pad ws1 ws2 k h1 h2]

/-- C10 witness: a key line `b" a\n"` selects the same records as the bare
    line `b"a"`. -/
theorem c10_key_normalization_witness :
    ((∀ b ∈ [32], isSpaceByte b = true) ∧ (∀ b ∈ [10], isSpaceByte b = true)
      ∧ stripBytes ([32] ++ [97] ++ [10]) = stripBytes [97])
    ∧ retrieve (([32] ++ [97] ++ [10]) :: []) [] (fun l => l) []
        = retrieve ([97] :: []) [] (fun l => l) [] :=
  ⟨⟨by decide, by decide, c10_key_normalization.1 [32] [10] [97] (by decide) (by decide)⟩,
   c10_key_normalization.2 [32] [10] [97] [] [] (fun l => l) [] (by decide) (by decide)⟩

end Gzipi
